import Mathlib

/-!
Verification of the json_editor repository: a shallow embedding of the
JSON <-> graph transform (`generateGraph` / `buildJson` in `src/App.tsx`)
and of the collaboration server's workspace handlers (`server.mjs`),
together with theorems settling the frozen specification claims.

Modelling conventions:
* JSON values are the mutual inductive family `JValue` / `JItems` / `JFields`;
  JavaScript object-key order is the list order, and deep equality is
  structural equality of the family.
* JSON numbers are modelled as integers (`Int`); the JavaScript
  `String(number)` / `Number(string)` pair is modelled by `intToString` /
  `jsNumber` below, which agree with JavaScript on integer numerals.
  `Number` applied to a non-numeral (which JavaScript sends to `NaN`)
  is modelled as `0`; no theorem below depends on that corner.
* JavaScript array pushes are modelled by list concatenation in push order;
  a JavaScript `Map` is an insertion-ordered association list, and a `Set`
  of strings is a duplicate-free `List String`.
* The unbounded recursion of `buildJson`'s `processNode` is modelled with
  explicit fuel (`processNodeF`); `buildJson` runs it with fuel
  `nodes.length + edges.length + 1`, and the stabilisation theorem for
  claim C4 shows every larger fuel computes the same value.
-/

set_option maxHeartbeats 1000000

/-! ## JSON values -/

mutual
inductive JValue where
  | jnull
  | jbool (b : Bool)
  | jnum (n : Int)
  | jstr (s : String)
  | jarr (items : JItems)
  | jobj (fields : JFields)
deriving DecidableEq, Repr

inductive JItems where
  | nil
  | cons (head : JValue) (tail : JItems)
deriving DecidableEq, Repr

inductive JFields where
  | nil
  | cons (key : String) (val : JValue) (tail : JFields)
deriving DecidableEq, Repr
end

def ilen : JItems → Nat
  | .nil => 0
  | .cons _ t => ilen t + 1

def flen : JFields → Nat
  | .nil => 0
  | .cons _ _ t => flen t + 1

def JItems.append : JItems → JItems → JItems
  | .nil, ys => ys
  | .cons x xs, ys => .cons x (JItems.append xs ys)

/-- Keys of a JSON object, in insertion order. -/
def fkeys : JFields → List String
  | .nil => []
  | .cons k _ t => k :: fkeys t

/-- Models `typeof v === 'object' && v !== null` (arrays and plain objects). -/
def isContainer : JValue → Bool
  | .jarr _ => true
  | .jobj _ => true
  | _ => false

/-- Models the JavaScript object assignment `result[key] = v`: an existing
key keeps its position and gets the new value, a new key is appended. -/
def jsObjSet : JFields → String → JValue → JFields
  | .nil, k, v => .cons k v .nil
  | .cons k' v' t, k, v =>
    if k' = k then .cons k' v t else .cons k' v' (jsObjSet t k v)

def jsObjHas : JFields → String → Bool
  | .nil, _ => false
  | .cons k' _ t, k => k' == k || jsObjHas t k

def jsObjGet : JFields → String → JValue
  | .nil, _ => .jnull
  | .cons k' v t, k => if k' = k then v else jsObjGet t k

/-! ## String utilities modelling the JavaScript primitives used -/

def digitChar (n : Nat) : Char :=
  match n with
  | 0 => '0' | 1 => '1' | 2 => '2' | 3 => '3' | 4 => '4'
  | 5 => '5' | 6 => '6' | 7 => '7' | 8 => '8' | _ => '9'

def natToStringAux : Nat → Nat → List Char
  | 0, _ => []
  | fuel+1, n =>
    if n < 10 then [digitChar n] else natToStringAux fuel (n / 10) ++ [digitChar (n % 10)]

/-- Decimal representation of a natural number (JavaScript `String(n)`). -/
def natToString (n : Nat) : String := ⟨natToStringAux (n + 1) n⟩

/-- Models JavaScript `String(n)` for an integer. -/
def intToString : Int → String
  | .ofNat n => natToString n
  | .negSucc m => "-" ++ natToString (m + 1)

def decDigitVal (c : Char) : Nat := c.toNat - 48

def parseDigits (l : List Char) : Option Nat :=
  if l ≠ [] ∧ l.all Char.isDigit then
    some (l.foldl (fun acc c => acc * 10 + decDigitVal c) 0)
  else none

/-- Models JavaScript `Number(s)` on integer numerals (see the header note):
an optional leading minus sign followed by decimal digits. -/
def jsNumber (s : String) : Int :=
  if s.data.head? = some '-' then
    match parseDigits s.data.tail with
    | some n => -(n : Int)
    | none => 0
  else
    match parseDigits s.data with
    | some n => (n : Int)
    | none => 0

def isJsSpace (c : Char) : Bool :=
  c = ' ' || c = '\t' || c = '\n' || c = '\r' || c = '\x0b' || c = '\x0c'

/-- Models JavaScript `s.trim()`. -/
def jsTrim (s : String) : String :=
  ⟨((s.data.dropWhile isJsSpace).reverse.dropWhile isJsSpace).reverse⟩

def isHexDigit (c : Char) : Bool :=
  c.isDigit || ('A' ≤ c && c ≤ 'F') || ('a' ≤ c && c ≤ 'f')

/-- Models the color regex `/^#([0-9A-F]{3}){1,2}$/i` of `generateGraph`. -/
def isColorString (s : String) : Bool :=
  match s.data with
  | '#' :: rest => (rest.length == 3 || rest.length == 6) && rest.all isHexDigit
  | _ => false

/-- Models `/^\d+$/.test(String(key).trim())`: the trimmed key is a nonempty
digit string. Used by `buildJson` to infer the array shape of a node. -/
def isDigitKey (k : String) : Bool :=
  let t := jsTrim k
  !t.data.isEmpty && t.data.all Char.isDigit

/-! ## The graph model (`RowData`, `Node`, `Edge` of `src/App.tsx`)

Only the semantic fields are embedded: screen positions, styles and theme
colors do not influence either transform. -/

inductive RowType where
  | primitive | object | array
deriving DecidableEq, Repr

inductive PrimType where
  | pstring | pnumber | pboolean | pnull
deriving DecidableEq, Repr

structure RowData where
  id : String
  key : String
  value : String
  type : RowType
  primitiveType : PrimType
  isColor : Bool
deriving DecidableEq, Repr

structure GNode where
  id : String
  rows : List RowData
  isSyntheticRoot : Bool
  isPrimitiveArrayItemWrapper : Bool
deriving DecidableEq, Repr

structure GEdge where
  id : String
  source : String
  sourceHandle : String
  target : String
  label : String
deriving DecidableEq, Repr

structure Graph where
  nodes : List GNode
  edges : List GEdge
deriving DecidableEq, Repr

/-! ## `generateGraph` (JSON to graph, `src/App.tsx` lines 469-604) -/

/-- Row classification of one object entry (the `keys.forEach` body building
`rows` inside `processValue`). -/
def mkRow (key : String) (val : JValue) : RowData :=
  match val with
  | .jnull => ⟨key, key, "null", .primitive, .pnull, false⟩
  | .jarr items =>
    ⟨key, key, "[ " ++ natToString (ilen items) ++ " items ]", .array, .pstring, false⟩
  | .jobj fields =>
    ⟨key, key, "\x7b " ++ natToString (flen fields) ++ " keys \x7d", .object, .pstring, false⟩
  | .jnum n => ⟨key, key, intToString n, .primitive, .pnumber, false⟩
  | .jbool b => ⟨key, key, if b then "true" else "false", .primitive, .pboolean, false⟩
  | .jstr s => ⟨key, key, s, .primitive, .pstring, isColorString s⟩

def rowsOf : JFields → List RowData
  | .nil => []
  | .cons k v rest => mkRow k v :: rowsOf rest

/-- Row of the node created for a primitive value (the `Primitive root` branch
of `processValue`); note that no color flag is computed in that branch. -/
def primRow (v : JValue) : RowData :=
  match v with
  | .jnull => ⟨"root", "value", "null", .primitive, .pnull, false⟩
  | .jnum n => ⟨"root", "value", intToString n, .primitive, .pnumber, false⟩
  | .jbool b => ⟨"root", "value", if b then "true" else "false", .primitive, .pboolean, false⟩
  | .jstr s => ⟨"root", "value", s, .primitive, .pstring, false⟩
  | _ => ⟨"root", "value", "", .primitive, .pstring, false⟩

def mkEdge (source handle target label : String) : GEdge :=
  ⟨"e-" ++ source ++ "-" ++ handle ++ "-" ++ target, source, handle, target, label⟩

/-- Models `if (edgeSource && edgeSourceHandle) edges.push(...)`: in
JavaScript both must be non-null and nonempty (truthy) strings. -/
def edgeIfParent (es eh : Option String) (target label : String) : List GEdge :=
  match es, eh with
  | some s, some h => if s = "" ∨ h = "" then [] else [mkEdge s h target label]
  | _, _ => []

mutual
/-- The recursive `processValue` of `generateGraph`; returns the nodes and
edges it pushes, in push order. `hsr` is the captured `hasSyntheticRoot`. -/
def processValue (hsr : Bool) : JValue → String → Option String → Option String → String → Bool →
    List GNode × List GEdge
  | .jarr items, nodeId, es, eh, lbl, _ => processItems hsr items nodeId es eh lbl 0
  | .jobj fields, nodeId, es, eh, lbl, w =>
    let node : GNode := ⟨nodeId, rowsOf fields, (nodeId == "root") && hsr, w⟩
    let children := processChildren hsr fields nodeId
    (node :: children.1, edgeIfParent es eh nodeId lbl ++ children.2)
  | v, nodeId, es, eh, lbl, w =>
    (([⟨nodeId, [primRow v], false, w⟩] : List GNode), edgeIfParent es eh nodeId lbl)

/-- The `value.forEach((item, index) => ...)` loop of the array branch:
each element becomes its own child node at id `nodeId-index`, keeping the
parent edge source/handle, and a primitive element is wrapped. -/
def processItems (hsr : Bool) : JItems → String → Option String → Option String → String → Nat →
    List GNode × List GEdge
  | .nil, _, _, _, _, _ => ([], [])
  | .cons item rest, nodeId, es, eh, lbl, idx =>
    let childId := nodeId ++ "-" ++ natToString idx
    let isPrim : Bool := match item with | .jarr _ => false | .jobj _ => false | _ => true
    let first := processValue hsr item childId es eh lbl isPrim
    let more := processItems hsr rest nodeId es eh lbl (idx + 1)
    (first.1 ++ more.1, first.2 ++ more.2)

/-- The second `keys.forEach` of the object branch: each object or array
value recurses at child id `nodeId-key` with edge source `nodeId` and
handle `key`. -/
def processChildren (hsr : Bool) : JFields → String → List GNode × List GEdge
  | .nil, _ => ([], [])
  | .cons k v rest, nodeId =>
    let first :=
      if isContainer v then processValue hsr v (nodeId ++ "-" ++ k) (some nodeId) (some k) k false
      else ([], [])
    let more := processChildren hsr rest nodeId
    (first.1 ++ more.1, first.2 ++ more.2)
end

/-- The `generateGraph` transform: a non-object top level is wrapped as
`{root: value}` and the node `"root"` is tagged as synthetic root. -/
def generateGraph (json : JValue) : Graph :=
  let hsr : Bool := match json with | .jobj _ => false | _ => true
  let rootObj := if hsr then JValue.jobj (.cons "root" json .nil) else json
  let res := processValue hsr rootObj "root" none none "" false
  ⟨res.1, res.2⟩

/-! ## `buildJson` (graph to JSON, `src/App.tsx` lines 1205-1322) -/

/-- Fallback parsing of a row's display string into its declared primitive
kind (the `let val = row.value; ...` blocks of `processNode`). -/
def parseRowValue (row : RowData) : JValue :=
  match row.primitiveType with
  | .pnumber => .jnum (jsNumber row.value)
  | .pboolean => .jbool (row.value == "true")
  | .pnull => .jnull
  | .pstring => .jstr row.value

/-- Node lookup modelling `new Map(nodes.map(n => [n.id, n]))`: the last
node with a given id wins. -/
def findNode (g : Graph) (nodeId : String) : Option GNode :=
  g.nodes.reverse.find? (fun n => n.id == nodeId)

def rowEdgesFor (nodeEdges : List GEdge) (rowId : String) : List GEdge :=
  nodeEdges.filter (fun e => e.sourceHandle == rowId)

/-- Shape inference of `processNode`: serialize as an array only when there
is at least one row and every row key trims to a digit string. -/
def isArrayNode (rows : List RowData) : Bool :=
  !rows.isEmpty && rows.all (fun r => isDigitKey r.key)

/-- Runs the recursive reconstruction `f` over the targets of a list of
edges, threading the `visited` set (`rowEdges.map`/`forEach` of
`processNode`). -/
def runTargets (f : List String → String → JValue × List String) :
    List String → List GEdge → JItems × List String
  | v, [] => (.nil, v)
  | v, e :: rest =>
    let first := f v e.target
    let more := runTargets f first.2 rest
    (.cons first.1 more.1, more.2)

/-- One iteration of the `rows.forEach` loop of the array branch of
`processNode`: the items this row pushes, and the updated visited set. -/
def arrRowChunk (f : List String → String → JValue × List String) (nodeEdges : List GEdge)
    (v : List String) (row : RowData) : JItems × List String :=
  let re := rowEdgesFor nodeEdges row.id
  if !re.isEmpty then runTargets f v re
  else if row.type == .array then (.cons (.jarr .nil) .nil, v)
  else if row.type == .object then (.cons (.jobj .nil) .nil, v)
  else (.cons (parseRowValue row) .nil, v)

/-- The `rows.forEach` loop of the array branch of `processNode`. -/
def runRowsArr (f : List String → String → JValue × List String) (nodeEdges : List GEdge) :
    List String → List RowData → JItems × List String
  | v, [] => (.nil, v)
  | v, row :: rest =>
    let first := arrRowChunk f nodeEdges v row
    let more := runRowsArr f nodeEdges first.2 rest
    (first.1.append more.1, more.2)

/-- One iteration of the `rows.forEach` loop of the object branch of
`processNode`: the value assigned to `result[row.key]`, and the updated
visited set. -/
def objRowStep (f : List String → String → JValue × List String) (nodeEdges : List GEdge)
    (v : List String) (row : RowData) : JValue × List String :=
  let re := rowEdgesFor nodeEdges row.id
  if row.type == .array then
    if !re.isEmpty then
      let ts := runTargets f v re
      (.jarr ts.1, ts.2)
    else (.jarr .nil, v)
  else if row.type == .object then
    match re with
    | e :: _ => f v e.target
    | [] => (.jobj .nil, v)
  else
    match re with
    | e :: _ => f v e.target
    | [] => (parseRowValue row, v)

/-- The `rows.forEach` loop of the object branch of `processNode`. -/
def runRowsObj (f : List String → String → JValue × List String) (nodeEdges : List GEdge) :
    List String → List RowData → JFields → JFields × List String
  | v, [], acc => (acc, v)
  | v, row :: rest, acc =>
    let s := objRowStep f nodeEdges v row
    runRowsObj f nodeEdges s.2 rest (jsObjSet acc row.key s.1)

/-- The recursive `processNode` of `buildJson`, with explicit fuel. The
`visited` list models the `visited` set of currently-being-reconstructed
node ids: a revisit yields the `"[Circular]"` sentinel, and the id is
deleted again when the recursion for an existing node unwinds. -/
def processNodeF (g : Graph) : Nat → List String → String → JValue × List String
  | 0 => fun v _ => (.jstr "[NoFuel]", v)
  | fuel+1 => fun v nodeId =>
    if v.contains nodeId then (.jstr "[Circular]", v)
    else
      let v1 := nodeId :: v
      match findNode g nodeId with
      | none => (.jnull, v1)
      | some node =>
        let nodeEdges := g.edges.filter (fun e => e.source == nodeId)
        if node.isPrimitiveArrayItemWrapper && !node.rows.isEmpty then
          let val := match node.rows with
            | r :: _ => parseRowValue r
            | [] => .jnull
          (val, v1.filter (fun x => x ≠ nodeId))
        else if isArrayNode node.rows then
          let res := runRowsArr (processNodeF g fuel) nodeEdges v1 node.rows
          (.jarr res.1, res.2.filter (fun x => x ≠ nodeId))
        else
          let res := runRowsObj (processNodeF g fuel) nodeEdges v1 node.rows .nil
          (.jobj res.1, res.2.filter (fun x => x ≠ nodeId))

/-- Fuel that claim C4 proves sufficient for every graph. -/
def defaultFuel (g : Graph) : Nat := g.nodes.length + g.edges.length + 1

/-- One-step unfolding of `processNodeF`, keeping the recursive occurrence
as an application of `processNodeF g fuel` so that it can be rewritten. -/
theorem processNodeF_succ_eq (g : Graph) (fuel : Nat) (v : List String) (id : String) :
    processNodeF g (fuel + 1) v id =
      (if v.contains id then (JValue.jstr "[Circular]", v)
      else
        match findNode g id with
        | none => (JValue.jnull, id :: v)
        | some node =>
          if node.isPrimitiveArrayItemWrapper && !node.rows.isEmpty then
            ((match node.rows with
              | r :: _ => parseRowValue r
              | [] => JValue.jnull), (id :: v).filter (fun x => x ≠ id))
          else if isArrayNode node.rows then
            (JValue.jarr (runRowsArr (processNodeF g fuel)
                (g.edges.filter (fun e => e.source == id)) (id :: v) node.rows).1,
              (runRowsArr (processNodeF g fuel)
                (g.edges.filter (fun e => e.source == id)) (id :: v) node.rows).2.filter
                (fun x => x ≠ id))
          else
            (JValue.jobj (runRowsObj (processNodeF g fuel)
                (g.edges.filter (fun e => e.source == id)) (id :: v) node.rows .nil).1,
              (runRowsObj (processNodeF g fuel)
                (g.edges.filter (fun e => e.source == id)) (id :: v) node.rows .nil).2.filter
                (fun x => x ≠ id))) := rfl

/-- Models `rootValue && typeof rootValue === 'object' && !Array.isArray(rootValue)
&& Object.prototype.hasOwnProperty.call(rootValue, 'root')`. -/
def hasRootKey (v : JValue) : Bool :=
  match v with
  | .jobj fs => jsObjHas fs "root"
  | _ => false

def getRootKey (v : JValue) : JValue :=
  match v with
  | .jobj fs => jsObjGet fs "root"
  | _ => .jnull

/-- Multi-root fallback (`rootNodes.forEach`): one object entry per root
node, keyed by node id, sharing the single `visited` set. -/
def multiRootFold (g : Graph) (fuel : Nat) :
    List GNode → JFields → List String → JFields
  | [], acc, _ => acc
  | n :: rest, acc, v =>
    let res := processNodeF g fuel v n.id
    multiRootFold g fuel rest (jsObjSet acc n.id res.1) res.2

/-- The `buildJson` reconstruction with explicit fuel. -/
def buildJsonFuel (g : Graph) (fuel : Nat) : JValue :=
  let targets := g.edges.map (fun e => e.target)
  let roots := g.nodes.filter (fun n => !targets.contains n.id)
  match roots with
  | [] =>
    match g.nodes with
    | [] => .jobj .nil
    | n :: _ => (processNodeF g fuel [] n.id).1
  | [r] =>
    let rootValue := (processNodeF g fuel [] r.id).1
    if r.isSyntheticRoot && hasRootKey rootValue then getRootKey rootValue else rootValue
  | rs => .jobj (multiRootFold g fuel rs .nil [])

/-- The graph-to-JSON transform. -/
def buildJson (g : Graph) : JValue := buildJsonFuel g (defaultFuel g)

/-! ## The collaboration server (`server.mjs`)

The handlers are embedded as pure functions from the workspace state and
the triggering socket to the next state plus the list of emitted events.
`EmitTarget` distinguishes `io.to(workspaceId).emit` (the whole room),
`socket.to(workspaceId).emit` (the room minus the sender) and
`io.to(socketId).emit` / `socket.emit` (one socket). -/

structure UserMeta where
  id : String
  name : String
  color : String
deriving DecidableEq, Repr

/-- Models `Map.prototype.set`: an existing key keeps its insertion
position, a new key is appended. -/
def mapSet {α : Type} : List (String × α) → String → α → List (String × α)
  | [], k, v => [(k, v)]
  | (k', v') :: t, k, v => if k' = k then (k', v) :: t else (k', v') :: mapSet t k v

/-- Models `Map.prototype.delete` of one key. -/
def mapDelete {α : Type} (m : List (String × α)) (k : String) : List (String × α) :=
  m.filter (fun kv => kv.1 ≠ k)

inductive EmitTarget where
  | room
  | exceptSender
  | toSocket (sid : String)
deriving DecidableEq, Repr

structure Emission where
  target : EmitTarget
  event : String
deriving DecidableEq, Repr

structure Workspace where
  jsonText : String
  nodes : List GNode
  edges : List GEdge
  isFullScreen : Bool
  editorWidth : Int
  connectedUsers : List (String × UserMeta)
  ownerSocketId : Option String
  allowCollaboratorEdits : Bool
deriving DecidableEq, Repr

def createWorkspaceState : Workspace :=
  ⟨"", [], [], false, 420, [], none, false⟩

/-- Models the JavaScript falsiness test `!workspace.ownerSocketId`
(null or the empty string). -/
def ownerFalsy (o : Option String) : Bool :=
  match o with
  | none => true
  | some s => s = ""

/-- Connection handler (`io.on("connection", ...)`, lines 97-128 of
`server.mjs`): the first joiner becomes owner, the user is registered, the
room is told the user list and the joiner alone receives the snapshot. -/
def handleConnect (ws : Workspace) (sid : String) : Workspace × List Emission :=
  let ws1 := if ownerFalsy ws.ownerSocketId then { ws with ownerSocketId := some sid } else ws
  let user : UserMeta := ⟨sid, "User " ++ String.mk (sid.data.take 4), "#64748b"⟩
  let ws2 := { ws1 with connectedUsers := mapSet ws1.connectedUsers sid user }
  (ws2, [⟨.room, "online-users"⟩, ⟨.toSocket sid, "init-state"⟩])

/-- Partial state delta of a `state-change` message: a field is `none` when
it is absent from the payload or fails the handler's type guard
(`typeof === 'string'`, `Array.isArray`, `typeof === 'boolean'`,
finite `typeof === 'number'`). -/
structure StateDelta where
  jsonText : Option String
  nodes : Option (List GNode)
  edges : Option (List GEdge)
  isFullScreen : Option Bool
  editorWidth : Option Int
deriving DecidableEq, Repr

/-- The `state-change` handler (lines 247-279 of `server.mjs`): document
fields require edit rights, UI fields do not, and the applied fields are
rebroadcast to the room except the sender; an empty payload emits nothing.
No message is ever addressed to the sender. -/
def handleStateChange (ws : Workspace) (sid : String) (d : StateDelta) :
    Workspace × List Emission :=
  let canEdit := ws.ownerSocketId == some sid || ws.allowCollaboratorEdits
  let ws1 := if canEdit then
      { ws with
        jsonText := d.jsonText.getD ws.jsonText,
        nodes := d.nodes.getD ws.nodes,
        edges := d.edges.getD ws.edges }
    else ws
  let ws2 := { ws1 with
    isFullScreen := d.isFullScreen.getD ws.isFullScreen,
    editorWidth := d.editorWidth.getD ws.editorWidth }
  let payloadEmpty :=
    !(canEdit && (d.jsonText.isSome || d.nodes.isSome || d.edges.isSome)) &&
    !d.isFullScreen.isSome && !d.editorWidth.isSome
  (ws2, if payloadEmpty then [] else [⟨.exceptSender, "state-update"⟩])

/-- The `set-edit-access` handler (lines 152-162 of `server.mjs`): only the
current owner may flip `allowCollaboratorEdits`; the new permissions are
broadcast to the room. -/
def handleSetEditAccess (ws : Workspace) (sid : String) (allow : Option Bool) :
    Workspace × List Emission :=
  if ws.ownerSocketId ≠ some sid then (ws, [])
  else
    match allow with
    | none => (ws, [])
    | some b =>
      ({ ws with allowCollaboratorEdits := b }, [⟨.room, "workspace-permissions"⟩])

/-- The `disconnect` handler (lines 281-303 of `server.mjs`): the user is
removed; if it owned the workspace, ownership moves to the first remaining
member (or null) and the new permissions are broadcast. -/
def handleDisconnect (ws : Workspace) (sid : String) : Workspace × List Emission :=
  let users := mapDelete ws.connectedUsers sid
  let ownerChanged := ws.ownerSocketId == some sid
  let newOwner :=
    if ownerChanged then
      match users.head? with
      | some kv => some kv.1
      | none => none
    else ws.ownerSocketId
  let ws1 := { ws with connectedUsers := users, ownerSocketId := newOwner }
  (ws1,
    [⟨.room, "online-users"⟩, ⟨.room, "user-disconnected"⟩, ⟨.room, "voice-user-left"⟩] ++
      (if ownerChanged then [⟨.room, "workspace-permissions"⟩] else []))

/-! ## Workspace id sanitization (`server.mjs` lines 12-38) -/

def isWidChar (c : Char) : Bool :=
  ('A' ≤ c && c ≤ 'Z') || ('a' ≤ c && c ≤ 'z') || c.isDigit || c = '_' || c = '-'

/-- Models the regex `/^[a-zA-Z0-9_-]{6,64}$/`. -/
def matchesWidPattern (s : String) : Bool :=
  6 ≤ s.data.length && s.data.length ≤ 64 && s.data.all isWidChar

/-- Models `randomUUID().replace(dashes, "").slice(0, 12)` (the regex
removes every dash), with the `randomUUID()` result passed in as the
`uuid` argument. -/
def createWorkspaceId (uuid : String) : String :=
  ⟨(uuid.data.filter (fun c => c ≠ '-')).take 12⟩

/-- Well-formedness of a `randomUUID()` result: lowercase-hex digits and
dashes, with at least 12 hex digits (a real UUID has exactly 32). -/
def uuidShaped (uuid : String) : Bool :=
  12 ≤ (uuid.data.filter (fun c => c ≠ '-')).length &&
    uuid.data.all (fun c => c.isDigit || ('a' ≤ c && c ≤ 'f') || c = '-')

/-- Models `sanitizeWorkspaceId`: `none` stands for a missing or
non-string candidate. -/
def sanitizeWorkspaceId (candidate : Option String) (uuid : String) : String :=
  match candidate with
  | none => createWorkspaceId uuid
  | some s => if matchesWidPattern (jsTrim s) then jsTrim s else createWorkspaceId uuid

/-! ## Connect/disconnect event sequences (for the reachable-state
invariant of claim C10) -/

inductive SEvent where
  | connect (sid : String)
  | disconnect (sid : String)
deriving DecidableEq, Repr

def stepWs (ws : Workspace) (e : SEvent) : Workspace :=
  match e with
  | .connect sid => (handleConnect ws sid).1
  | .disconnect sid => (handleDisconnect ws sid).1

def runWs (l : List SEvent) : Workspace := l.foldl stepWs createWorkspaceState

/-- The owner is a connected member, and is null only on an empty
workspace. -/
def ownerInv (ws : Workspace) : Prop :=
  match ws.ownerSocketId with
  | none => ws.connectedUsers = []
  | some o => o ∈ ws.connectedUsers.map (fun kv => kv.1)

-- Sanity checks of the embedding on concrete values.
example :
    generateGraph (.jnum 42) =
      ⟨[⟨"root", [⟨"root", "root", "42", .primitive, .pnumber, false⟩], true, false⟩], []⟩ := rfl

example : buildJson (generateGraph (.jnum 42)) = .jnum 42 := rfl

example :
    buildJson (generateGraph (.jobj (.cons "a"
      (.jarr (.cons (.jnum 1) (.cons (.jstr "x") (.cons (.jbool true) (.cons .jnull .nil))))) .nil))) =
    .jobj (.cons "a"
      (.jarr (.cons (.jnum 1) (.cons (.jstr "x") (.cons (.jbool true) (.cons .jnull .nil))))) .nil) := rfl

-- The numeric-key heuristic is lossy: {"0": 0} rebuilds as [0].
example :
    buildJson (generateGraph (.jobj (.cons "0" (.jnum 0) .nil))) = .jarr (.cons (.jnum 0) .nil) := rfl

/-! ## Supporting lemmas on the map model -/

theorem mapSet_keys_superset {α : Type} (m : List (String × α)) (k k' : String) (v : α)
    (h : k' ∈ m.map Prod.fst ∨ k' = k) : k' ∈ (mapSet m k v).map Prod.fst := by
  induction m with
  | nil =>
    rcases h with h | h
    · simp at h
    · simp [mapSet, h]
  | cons hd tl ih =>
    obtain ⟨a, b⟩ := hd
    by_cases hk : a = k
    · simp only [mapSet, if_pos hk, List.map_cons, List.mem_cons]
      rcases h with h | h
      · simp only [List.map_cons, List.mem_cons] at h
        exact h
      · subst h
        exact Or.inl hk.symm
    · simp only [mapSet, if_neg hk, List.map_cons, List.mem_cons]
      rcases h with h | h
      · simp only [List.map_cons, List.mem_cons] at h
        rcases h with h | h
        · exact Or.inl h
        · exact Or.inr (ih (Or.inl h))
      · exact Or.inr (ih (Or.inr h))

theorem handleStateChange_all_emissions_skip_sender (ws : Workspace) (sid : String)
    (d : StateDelta) : ∀ e ∈ (handleStateChange ws sid d).2, e.target = .exceptSender := by
  intro e he
  simp only [handleStateChange] at he
  split at he
  · simp at he
  · simp only [List.mem_singleton] at he
    subst he
    rfl

theorem mapDelete_keys_mem {α : Type} (m : List (String × α)) (k sid : String)
    (hmem : k ∈ m.map Prod.fst) (hne : k ≠ sid) : k ∈ (mapDelete m sid).map Prod.fst := by
  simp only [List.mem_map] at hmem
  obtain ⟨kv, hkv, rfl⟩ := hmem
  have : kv ∈ mapDelete m sid := by
    simp only [mapDelete, List.mem_filter]
    exact ⟨hkv, by simpa using hne⟩
  exact List.mem_map.mpr ⟨kv, this, rfl⟩

/-! ## Fuel stabilisation for `processNodeF`

Every node id passed to `processNodeF` is a node id or an edge target; an
id is added to `visited` before recursing, so the recursion depth is
bounded by the number of distinct such ids, and any fuel beyond
`defaultFuel` computes the same value. This is the formal content of
"`buildJson` terminates on every finite graph". -/

def idsOf (g : Graph) : List String :=
  g.nodes.map (fun n => n.id) ++ g.edges.map (fun e => e.target)

/-- Number of ids of the graph not yet in the visited set; the decreasing
measure of `processNodeF`. -/
def availCount (g : Graph) (v : List String) : Nat :=
  ((idsOf g).dedup.filter (fun i => !v.contains i)).length

theorem length_filter_mono_pred {α : Type} (p q : α → Bool) :
    ∀ l : List α, (∀ x ∈ l, p x = true → q x = true) →
      (l.filter p).length ≤ (l.filter q).length := by
  intro l
  induction l with
  | nil => intro _; simp
  | cons x xs ih =>
    intro h
    have ih' := ih (fun y hy hp => h y (List.mem_cons_of_mem _ hy) hp)
    by_cases hp : p x = true
    · have hq := h x (List.mem_cons_self _ _) hp
      simp only [List.filter_cons, hp, if_true, hq, List.length_cons]
      omega
    · have hp' : p x = false := by simpa using hp
      simp only [List.filter_cons, hp', Bool.false_eq_true, if_false]
      by_cases hq : q x = true
      · simp only [hq, if_true, List.length_cons]
        omega
      · have hq' : q x = false := by simpa using hq
        simp only [hq', Bool.false_eq_true, if_false]
        exact ih'

theorem length_filter_lt_pred {α : Type} (p q : α → Bool) (a : α) :
    ∀ l : List α, a ∈ l → (∀ x ∈ l, p x = true → q x = true) →
      p a = false → q a = true →
      (l.filter p).length < (l.filter q).length := by
  intro l
  induction l with
  | nil => intro ha; cases ha
  | cons x xs ih =>
    intro ha h hpa hqa
    have hrest : ∀ x ∈ xs, p x = true → q x = true :=
      fun y hy hp => h y (List.mem_cons_of_mem _ hy) hp
    rcases List.mem_cons.mp ha with rfl | hmem
    · simp only [List.filter_cons, hpa, Bool.false_eq_true, if_false, hqa, if_true,
        List.length_cons]
      have := length_filter_mono_pred p q xs hrest
      omega
    · by_cases hp : p x = true
      · have hq := h x (List.mem_cons_self _ _) hp
        simp only [List.filter_cons, hp, if_true, hq, List.length_cons]
        have := ih hmem hrest hpa hqa
        omega
      · have hp' : p x = false := by simpa using hp
        simp only [List.filter_cons, hp', Bool.false_eq_true, if_false]
        have hlt := ih hmem hrest hpa hqa
        by_cases hq : q x = true
        · simp only [hq, if_true, List.length_cons]
          omega
        · have hq' : q x = false := by simpa using hq
          simp only [hq', Bool.false_eq_true, if_false]
          exact hlt

theorem contains_false_iff {α : Type} [BEq α] [LawfulBEq α] (l : List α) (a : α) :
    l.contains a = false ↔ a ∉ l := by
  constructor
  · intro h hmem
    have h2 : l.contains a = true := List.elem_iff.mpr hmem
    rw [h2] at h
    cases h
  · intro h
    by_cases hc : l.contains a = true
    · exact absurd (List.elem_iff.mp hc) h
    · simpa using hc

theorem availCount_le_of_sub (g : Graph) (v w : List String)
    (hsub : ∀ x ∈ v, x ∈ w) : availCount g w ≤ availCount g v := by
  apply length_filter_mono_pred
  intro x _ hx
  simp only [Bool.not_eq_true'] at hx ⊢
  rw [contains_false_iff] at hx ⊢
  exact fun hv => hx (hsub x hv)

theorem availCount_le_nil (g : Graph) (w : List String) :
    availCount g w ≤ availCount g [] :=
  availCount_le_of_sub g [] w (by simp)

theorem availCount_lt_cons (g : Graph) (v : List String) (id : String)
    (hin : id ∈ idsOf g) (hout : id ∉ v) :
    availCount g (id :: v) < availCount g v := by
  apply length_filter_lt_pred _ _ id _ (List.mem_dedup.mpr hin)
  · intro x _ hx
    simp only [Bool.not_eq_true'] at hx ⊢
    rw [contains_false_iff] at hx ⊢
    exact fun hv => hx (List.mem_cons_of_mem _ hv)
  · have h1 : (id :: v).contains id = true := List.elem_iff.mpr (List.mem_cons_self _ _)
    simp only [Bool.not_eq_false']
    exact h1
  · have h2 : v.contains id = false := (contains_false_iff v id).mpr hout
    simp only [Bool.not_eq_true']
    exact h2

theorem findNode_mem_ids (g : Graph) (id : String) (n : GNode)
    (h : findNode g id = some n) : id ∈ idsOf g := by
  have h2 := List.find?_some h
  have h3 := List.mem_of_find?_eq_some h
  have hmem : n ∈ g.nodes := List.mem_reverse.mp h3
  simp only [idsOf, List.mem_append, List.mem_map]
  exact Or.inl ⟨n, hmem, by simpa using h2⟩

theorem runTargets_mono (f : List String → String → JValue × List String)
    (hf : ∀ w i, ∀ x ∈ w, x ∈ (f w i).2) :
    ∀ (es : List GEdge) (v : List String), ∀ x ∈ v, x ∈ (runTargets f v es).2 := by
  intro es
  induction es with
  | nil => intro v x hx; simpa [runTargets] using hx
  | cons e rest ih =>
    intro v x hx
    simp only [runTargets]
    exact ih _ x (hf v e.target x hx)

theorem arrRowChunk_mono (f : List String → String → JValue × List String)
    (nodeEdges : List GEdge) (hf : ∀ w i, ∀ x ∈ w, x ∈ (f w i).2)
    (v : List String) (row : RowData) : ∀ x ∈ v, x ∈ (arrRowChunk f nodeEdges v row).2 := by
  intro x hx
  simp only [arrRowChunk]
  split
  · exact runTargets_mono f hf _ v x hx
  · split
    · exact hx
    · split
      · exact hx
      · exact hx

theorem objRowStep_mono (f : List String → String → JValue × List String)
    (nodeEdges : List GEdge) (hf : ∀ w i, ∀ x ∈ w, x ∈ (f w i).2)
    (v : List String) (row : RowData) : ∀ x ∈ v, x ∈ (objRowStep f nodeEdges v row).2 := by
  intro x hx
  simp only [objRowStep]
  split
  · split
    · exact runTargets_mono f hf _ v x hx
    · exact hx
  · split
    · split
      · exact hf v _ x hx
      · exact hx
    · split
      · exact hf v _ x hx
      · exact hx

theorem runRowsArr_mono (f : List String → String → JValue × List String)
    (nodeEdges : List GEdge) (hf : ∀ w i, ∀ x ∈ w, x ∈ (f w i).2) :
    ∀ (rows : List RowData) (v : List String), ∀ x ∈ v,
      x ∈ (runRowsArr f nodeEdges v rows).2 := by
  intro rows
  induction rows with
  | nil => intro v x hx; simpa [runRowsArr] using hx
  | cons row rest ih =>
    intro v x hx
    simp only [runRowsArr]
    exact ih _ x (arrRowChunk_mono f nodeEdges hf v row x hx)

theorem runRowsObj_mono (f : List String → String → JValue × List String)
    (nodeEdges : List GEdge) (hf : ∀ w i, ∀ x ∈ w, x ∈ (f w i).2) :
    ∀ (rows : List RowData) (v : List String) (acc : JFields), ∀ x ∈ v,
      x ∈ (runRowsObj f nodeEdges v rows acc).2 := by
  intro rows
  induction rows with
  | nil => intro v acc x hx; simpa [runRowsObj] using hx
  | cons row rest ih =>
    intro v acc x hx
    simp only [runRowsObj]
    exact ih _ _ x (objRowStep_mono f nodeEdges hf v row x hx)

theorem processNodeF_mono (g : Graph) :
    ∀ (fuel : Nat) (v : List String) (id : String), ∀ x ∈ v,
      x ∈ (processNodeF g fuel v id).2 := by
  intro fuel
  induction fuel with
  | zero => intro v id x hx; exact hx
  | succ fuel ih =>
    intro v id x hx
    have hfx : ∀ w i, ∀ y ∈ w, y ∈ (processNodeF g fuel w i).2 := fun w i => ih w i
    simp only [processNodeF]
    split
    next hc => exact hx
    next hc =>
      have hnotin : id ∉ v := fun hmem => hc (List.elem_iff.mpr hmem)
      have hxid : x ≠ id := fun hxe => hnotin (hxe ▸ hx)
      split
      · exact List.mem_cons_of_mem _ hx
      · split
        · refine List.mem_filter.mpr ⟨List.mem_cons_of_mem _ hx, by simpa using hxid⟩
        · split
          · refine List.mem_filter.mpr ⟨?_, by simpa using hxid⟩
            exact runRowsArr_mono (processNodeF g fuel) _ hfx _ (id :: v) x
              (List.mem_cons_of_mem _ hx)
          · refine List.mem_filter.mpr ⟨?_, by simpa using hxid⟩
            exact runRowsObj_mono (processNodeF g fuel) _ hfx _ (id :: v) .nil x
              (List.mem_cons_of_mem _ hx)

/-! Congruence of the reconstruction in the fuel argument. -/

theorem runTargets_congr (g : Graph) (m : Nat)
    (f f' : List String → String → JValue × List String)
    (hf : ∀ w i, ∀ x ∈ w, x ∈ (f w i).2)
    (hagree : ∀ w i, availCount g w ≤ m → f w i = f' w i) :
    ∀ (es : List GEdge) (v : List String), availCount g v ≤ m →
      runTargets f v es = runTargets f' v es := by
  intro es
  induction es with
  | nil => intro v _; rfl
  | cons e rest ih =>
    intro v hv
    have heq := hagree v e.target hv
    have hsub : ∀ x ∈ v, x ∈ (f' v e.target).2 := by
      rw [← heq]; exact hf v e.target
    have hm : availCount g (f' v e.target).2 ≤ m :=
      le_trans (availCount_le_of_sub g v _ hsub) hv
    simp only [runTargets]
    rw [heq]
    rw [ih _ hm]

theorem arrRowChunk_congr (g : Graph) (m : Nat)
    (f f' : List String → String → JValue × List String) (nodeEdges : List GEdge)
    (hf : ∀ w i, ∀ x ∈ w, x ∈ (f w i).2)
    (hagree : ∀ w i, availCount g w ≤ m → f w i = f' w i)
    (v : List String) (row : RowData) (hv : availCount g v ≤ m) :
    arrRowChunk f nodeEdges v row = arrRowChunk f' nodeEdges v row := by
  simp only [arrRowChunk]
  split
  · exact runTargets_congr g m f f' hf hagree _ v hv
  · rfl

theorem objRowStep_congr (g : Graph) (m : Nat)
    (f f' : List String → String → JValue × List String) (nodeEdges : List GEdge)
    (hf : ∀ w i, ∀ x ∈ w, x ∈ (f w i).2)
    (hagree : ∀ w i, availCount g w ≤ m → f w i = f' w i)
    (v : List String) (row : RowData) (hv : availCount g v ≤ m) :
    objRowStep f nodeEdges v row = objRowStep f' nodeEdges v row := by
  simp only [objRowStep]
  split
  · split
    · rw [runTargets_congr g m f f' hf hagree _ v hv]
    · rfl
  · split
    · split
      · exact hagree v _ hv
      · rfl
    · split
      · exact hagree v _ hv
      · rfl

theorem runRowsArr_congr (g : Graph) (m : Nat)
    (f f' : List String → String → JValue × List String) (nodeEdges : List GEdge)
    (hf : ∀ w i, ∀ x ∈ w, x ∈ (f w i).2)
    (hagree : ∀ w i, availCount g w ≤ m → f w i = f' w i) :
    ∀ (rows : List RowData) (v : List String), availCount g v ≤ m →
      runRowsArr f nodeEdges v rows = runRowsArr f' nodeEdges v rows := by
  intro rows
  induction rows with
  | nil => intro v _; rfl
  | cons row rest ih =>
    intro v hv
    have hchunk := arrRowChunk_congr g m f f' nodeEdges hf hagree v row hv
    have hsub : ∀ x ∈ v, x ∈ (arrRowChunk f' nodeEdges v row).2 := by
      rw [← hchunk]; exact arrRowChunk_mono f nodeEdges hf v row
    have hm : availCount g (arrRowChunk f' nodeEdges v row).2 ≤ m :=
      le_trans (availCount_le_of_sub g v _ hsub) hv
    simp only [runRowsArr]
    rw [hchunk, ih _ hm]

theorem runRowsObj_congr (g : Graph) (m : Nat)
    (f f' : List String → String → JValue × List String) (nodeEdges : List GEdge)
    (hf : ∀ w i, ∀ x ∈ w, x ∈ (f w i).2)
    (hagree : ∀ w i, availCount g w ≤ m → f w i = f' w i) :
    ∀ (rows : List RowData) (v : List String) (acc : JFields), availCount g v ≤ m →
      runRowsObj f nodeEdges v rows acc = runRowsObj f' nodeEdges v rows acc := by
  intro rows
  induction rows with
  | nil => intro v acc _; rfl
  | cons row rest ih =>
    intro v acc hv
    have hstep := objRowStep_congr g m f f' nodeEdges hf hagree v row hv
    have hsub : ∀ x ∈ v, x ∈ (objRowStep f' nodeEdges v row).2 := by
      rw [← hstep]; exact objRowStep_mono f nodeEdges hf v row
    have hm : availCount g (objRowStep f' nodeEdges v row).2 ≤ m :=
      le_trans (availCount_le_of_sub g v _ hsub) hv
    simp only [runRowsObj]
    rw [hstep, ih _ _ hm]

theorem processNodeF_stable_succ (g : Graph) :
    ∀ (fuel : Nat) (v : List String) (id : String), availCount g v < fuel →
      processNodeF g fuel v id = processNodeF g (fuel + 1) v id := by
  intro fuel
  induction fuel with
  | zero => intro v id h; exact absurd h (Nat.not_lt_zero _)
  | succ fuel ih =>
    intro v id hv
    rw [processNodeF_succ_eq g fuel, processNodeF_succ_eq g (fuel + 1)]
    split
    next hc => rfl
    next hc =>
      have hnotin : id ∉ v := fun hmem => hc (List.elem_iff.mpr hmem)
      cases hfind : findNode g id with
      | none => simp only [hfind]
      | some node =>
        have hid : id ∈ idsOf g := findNode_mem_ids g id node hfind
        have hv1 : availCount g (id :: v) < fuel := by
          have := availCount_lt_cons g v id hid hnotin
          omega
        have hagree : ∀ w i, availCount g w ≤ availCount g (id :: v) →
            processNodeF g fuel w i = processNodeF g (fuel + 1) w i := by
          intro w i hw
          exact ih w i (lt_of_le_of_lt hw hv1)
        have hf : ∀ w i, ∀ x ∈ w, x ∈ (processNodeF g fuel w i).2 :=
          fun w i => processNodeF_mono g fuel w i
        simp only [hfind]
        split
        · rfl
        · have hArr := runRowsArr_congr g (availCount g (id :: v)) _ _
            (g.edges.filter (fun e => e.source == id)) hf hagree node.rows
            (id :: v) (le_refl _)
          have hObj := runRowsObj_congr g (availCount g (id :: v)) _ _
            (g.edges.filter (fun e => e.source == id)) hf hagree node.rows
            (id :: v) .nil (le_refl _)
          split
          · rw [hArr]
          · rw [hObj]

theorem processNodeF_stable (g : Graph) (fuel fuel' : Nat) (v : List String) (id : String)
    (h : availCount g v < fuel) (h2 : fuel ≤ fuel') :
    processNodeF g fuel v id = processNodeF g fuel' v id := by
  obtain ⟨k, rfl⟩ := Nat.exists_eq_add_of_le h2
  induction k with
  | zero => rfl
  | succ k ih =>
    rw [ih (by omega)]
    have : availCount g v < fuel + k := by omega
    have hs := processNodeF_stable_succ g (fuel + k) v id this
    simpa [Nat.add_assoc] using hs

theorem multiRootFold_stable (g : Graph) (fuel fuel' : Nat)
    (hf : availCount g [] < fuel) (hle : fuel ≤ fuel') :
    ∀ (rs : List GNode) (acc : JFields) (v : List String),
      multiRootFold g fuel rs acc v = multiRootFold g fuel' rs acc v := by
  intro rs
  induction rs with
  | nil => intro acc v; rfl
  | cons n rest ih =>
    intro acc v
    have heq : processNodeF g fuel v n.id = processNodeF g fuel' v n.id :=
      processNodeF_stable g fuel fuel' v n.id
        (lt_of_le_of_lt (availCount_le_nil g v) hf) hle
    simp only [multiRootFold]
    rw [heq, ih]

theorem availCount_lt_defaultFuel (g : Graph) : availCount g [] < defaultFuel g := by
  have h1 : availCount g [] ≤ (idsOf g).dedup.length := by
    unfold availCount
    exact List.length_filter_le _ _
  have h2 : (idsOf g).dedup.length ≤ (idsOf g).length := (List.dedup_sublist _).length_le
  have h3 : (idsOf g).length = g.nodes.length + g.edges.length := by
    simp [idsOf]
  unfold defaultFuel
  omega

theorem buildJsonFuel_stable (g : Graph) (fuel : Nat) (h : defaultFuel g ≤ fuel) :
    buildJsonFuel g fuel = buildJson g := by
  have hstable : ∀ id, processNodeF g fuel [] id = processNodeF g (defaultFuel g) [] id := by
    intro id
    exact (processNodeF_stable g (defaultFuel g) fuel [] id
      (availCount_lt_defaultFuel g) h).symm
  simp only [buildJson, buildJsonFuel]
  generalize g.nodes.filter
      (fun n => !(g.edges.map (fun e => e.target)).contains n.id) = roots
  cases roots with
  | nil =>
    generalize g.nodes = ns
    cases ns with
    | nil => rfl
    | cons n tail => simp only [hstable]
  | cons r rest =>
    cases rest with
    | nil => simp only [hstable]
    | cons r2 rest2 =>
      dsimp only
      rw [multiRootFold_stable g (defaultFuel g) fuel (availCount_lt_defaultFuel g) h]

/-! ## Decimal printing and parsing round-trip -/

theorem digitChar_spec (n : Nat) (h : n < 10) :
    (digitChar n).isDigit = true ∧ decDigitVal (digitChar n) = n := by
  interval_cases n <;> exact ⟨by decide, by decide⟩

theorem natToStringAux_spec :
    ∀ (fuel n : Nat), n < fuel →
      natToStringAux fuel n ≠ [] ∧
      (∀ c ∈ natToStringAux fuel n, c.isDigit = true) ∧
      (natToStringAux fuel n).foldl (fun acc c => acc * 10 + decDigitVal c) 0 = n := by
  intro fuel
  induction fuel with
  | zero => intro n h; omega
  | succ fuel ih =>
    intro n h
    by_cases h10 : n < 10
    · simp only [natToStringAux, if_pos h10]
      refine ⟨by simp, ?_, ?_⟩
      · intro c hc
        simp only [List.mem_singleton] at hc
        subst hc
        exact (digitChar_spec n h10).1
      · simp only [List.foldl_cons, List.foldl_nil]
        rw [(digitChar_spec n h10).2]
        omega
    · have hrec : n / 10 < fuel := by
        have hd : n / 10 < n := Nat.div_lt_self (by omega) (by omega)
        omega
      obtain ⟨hne, hdig, hfold⟩ := ih (n / 10) hrec
      have hm10 : n % 10 < 10 := Nat.mod_lt _ (by omega)
      simp only [natToStringAux, if_neg h10]
      refine ⟨by simp, ?_, ?_⟩
      · intro c hc
        rcases List.mem_append.mp hc with hc | hc
        · exact hdig c hc
        · simp only [List.mem_singleton] at hc
          subst hc
          exact (digitChar_spec (n % 10) hm10).1
      · rw [List.foldl_append]
        simp only [List.foldl_cons, List.foldl_nil]
        rw [hfold, (digitChar_spec (n % 10) hm10).2]
        omega

theorem parseDigits_spec (l : List Char) (hne : l ≠ []) (hdig : ∀ c ∈ l, c.isDigit = true) :
    parseDigits l = some (l.foldl (fun acc c => acc * 10 + decDigitVal c) 0) := by
  unfold parseDigits
  rw [if_pos]
  exact ⟨hne, by simpa [List.all_eq_true] using hdig⟩

theorem jsNumber_natToString (n : Nat) : jsNumber (natToString n) = (n : Int) := by
  obtain ⟨hne, hdig, hfold⟩ := natToStringAux_spec (n + 1) n (by omega)
  have hdata : (natToString n).data = natToStringAux (n + 1) n := rfl
  unfold jsNumber
  rw [hdata, if_neg, parseDigits_spec _ hne hdig, hfold]
  intro hhead
  cases hl : natToStringAux (n + 1) n with
  | nil => exact hne hl
  | cons c rest =>
    rw [hl] at hhead
    simp only [List.head?, Option.some.injEq] at hhead
    have hc : c.isDigit = true := hdig c (by rw [hl]; exact List.mem_cons_self _ _)
    rw [hhead] at hc
    exact absurd hc (by decide)

theorem jsNumber_intToString (n : Int) : jsNumber (intToString n) = n := by
  cases n with
  | ofNat m => exact jsNumber_natToString m
  | negSucc m =>
    obtain ⟨hne, hdig, hfold⟩ := natToStringAux_spec (m + 2) (m + 1) (by omega)
    have hdata : (intToString (Int.negSucc m)).data = '-' :: natToStringAux (m + 2) (m + 1) := rfl
    unfold jsNumber
    rw [hdata]
    have hcond : ('-' :: natToStringAux (m + 2) (m + 1)).head? = some '-' := rfl
    rw [if_pos hcond]
    simp only [List.tail_cons]
    rw [parseDigits_spec _ hne hdig, hfold]
    simp only [Int.negSucc_eq]
    omega

/-- JavaScript-primitive values (not objects, not arrays, null included). -/
def isPrim : JValue → Bool
  | .jarr _ => false
  | .jobj _ => false
  | _ => true

theorem parseRowValue_mkRow (k : String) (v : JValue) (h : isPrim v = true) :
    parseRowValue (mkRow k v) = v := by
  cases v with
  | jnull => rfl
  | jbool b => cases b <;> rfl
  | jnum n =>
    simp only [mkRow, parseRowValue]
    rw [jsNumber_intToString]
  | jstr s => rfl
  | jarr items => exact Bool.noConfusion h
  | jobj fields => exact Bool.noConfusion h

theorem parseRowValue_primRow (v : JValue) (h : isPrim v = true) :
    parseRowValue (primRow v) = v := by
  cases v with
  | jnull => rfl
  | jbool b => cases b <;> rfl
  | jnum n =>
    simp only [primRow, parseRowValue]
    rw [jsNumber_intToString]
  | jstr s => rfl
  | jarr items => exact Bool.noConfusion h
  | jobj fields => exact Bool.noConfusion h

/-! ## Path identifiers of generated nodes

`generateGraph` names the node of the object reached from the root by the
key/index segments `p` as `"root" ++ "-" ++ seg1 ++ "-" ++ seg2 ++ ...`;
for keys that are nonempty and dash-free this naming is injective. -/

def goodSegB (s : String) : Bool := !(s == "") && !s.data.contains '-'

def goodPath (p : List String) : Bool := p.all goodSegB

def pathId (p : List String) : String := p.foldl (fun acc s => acc ++ "-" ++ s) "root"

def dashConcat : List String → List Char
  | [] => []
  | s :: rest => '-' :: (s.data ++ dashConcat rest)

theorem string_data_append (a b : String) : (a ++ b).data = a.data ++ b.data := rfl

theorem pathId_append (p : List String) (s : String) :
    pathId (p ++ [s]) = pathId p ++ "-" ++ s := by
  unfold pathId
  rw [List.foldl_append]
  rfl

theorem pathId_data (p : List String) : (pathId p).data = "root".data ++ dashConcat p := by
  suffices h : ∀ (p : List String) (acc : String),
      (p.foldl (fun a s => a ++ "-" ++ s) acc).data = acc.data ++ dashConcat p from h p "root"
  intro p
  induction p with
  | nil => intro acc; simp [dashConcat]
  | cons s rest ih =>
    intro acc
    simp only [List.foldl_cons, dashConcat]
    rw [ih]
    simp [string_data_append]

theorem dashfree_append_inj :
    ∀ (l1 l2 r1 r2 : List Char),
      '-' ∉ l1 → '-' ∉ l2 →
      (r1 = [] ∨ r1.head? = some '-') → (r2 = [] ∨ r2.head? = some '-') →
      l1 ++ r1 = l2 ++ r2 → l1 = l2 ∧ r1 = r2 := by
  intro l1
  induction l1 with
  | nil =>
    intro l2 r1 r2 h1 h2 hr1 hr2 heq
    cases l2 with
    | nil => exact ⟨rfl, by simpa using heq⟩
    | cons c l2t =>
      exfalso
      simp only [List.nil_append] at heq
      rcases hr1 with rfl | hh
      · simp at heq
      · rw [heq] at hh
        have hc : c = '-' := by simpa using hh
        subst hc
        exact h2 (List.mem_cons_self _ _)
  | cons a l1t ih =>
    intro l2 r1 r2 h1 h2 hr1 hr2 heq
    cases l2 with
    | nil =>
      exfalso
      simp only [List.nil_append] at heq
      rcases hr2 with rfl | hh
      · simp at heq
      · rw [← heq] at hh
        have hc : a = '-' := by simpa using hh
        subst hc
        exact h1 (List.mem_cons_self _ _)
    | cons b l2t =>
      simp only [List.cons_append, List.cons.injEq] at heq
      obtain ⟨rfl, heq2⟩ := heq
      have hres := ih l2t r1 r2 (fun hm => h1 (List.mem_cons_of_mem _ hm))
        (fun hm => h2 (List.mem_cons_of_mem _ hm)) hr1 hr2 heq2
      exact ⟨by rw [hres.1], hres.2⟩

theorem dashConcat_head (p : List String) :
    dashConcat p = [] ∨ (dashConcat p).head? = some '-' := by
  cases p with
  | nil => exact Or.inl rfl
  | cons s rest => exact Or.inr rfl

theorem goodSegB_dashfree (s : String) (h : goodSegB s = true) : '-' ∉ s.data := by
  simp only [goodSegB, Bool.and_eq_true, Bool.not_eq_true'] at h
  exact (contains_false_iff _ _).mp h.2

theorem goodSegB_ne_empty (s : String) (h : goodSegB s = true) : s ≠ "" := by
  simp only [goodSegB, Bool.and_eq_true, Bool.not_eq_true'] at h
  exact beq_eq_false_iff_ne.mp h.1

theorem goodPath_cons (s : String) (p : List String) :
    goodPath (s :: p) = true ↔ goodSegB s = true ∧ goodPath p = true := by
  simp [goodPath]

theorem goodPath_append (p q : List String) :
    goodPath (p ++ q) = true ↔ goodPath p = true ∧ goodPath q = true := by
  simp [goodPath, List.all_append]

theorem dashConcat_inj :
    ∀ (p1 p2 : List String), goodPath p1 = true → goodPath p2 = true →
      dashConcat p1 = dashConcat p2 → p1 = p2 := by
  intro p1
  induction p1 with
  | nil =>
    intro p2 h1 h2 heq
    cases p2 with
    | nil => rfl
    | cons s rest => simp [dashConcat] at heq
  | cons s rest ih =>
    intro p2 h1 h2 heq
    cases p2 with
    | nil => simp [dashConcat] at heq
    | cons s2 rest2 =>
      simp only [dashConcat, List.cons.injEq, true_and] at heq
      have hg1 := (goodPath_cons s rest).mp h1
      have hg2 := (goodPath_cons s2 rest2).mp h2
      have hres := dashfree_append_inj s.data s2.data (dashConcat rest) (dashConcat rest2)
        (goodSegB_dashfree s hg1.1) (goodSegB_dashfree s2 hg2.1)
        (dashConcat_head rest) (dashConcat_head rest2) heq
      have hs : s = s2 := by
        have hd : s.data = s2.data := hres.1
        cases s
        cases s2
        exact congrArg String.mk hd
      rw [hs, ih rest2 hg1.2 hg2.2 hres.2]

theorem pathId_inj (p1 p2 : List String) (h1 : goodPath p1 = true) (h2 : goodPath p2 = true)
    (heq : pathId p1 = pathId p2) : p1 = p2 := by
  have hdata : (pathId p1).data = (pathId p2).data := by rw [heq]
  rw [pathId_data, pathId_data] at hdata
  exact dashConcat_inj p1 p2 h1 h2 (List.append_cancel_left hdata)

theorem pathId_ext_ne (p q : List String) (hp : goodPath p = true) (hq : goodPath q = true)
    (hne : q ≠ []) : pathId (p ++ q) ≠ pathId p := by
  intro heq
  have := pathId_inj (p ++ q) p ((goodPath_append p q).mpr ⟨hp, hq⟩) hp heq
  have hlen := congrArg List.length this
  simp only [List.length_append] at hlen
  have : q.length = 0 := by omega
  exact hne (List.length_eq_zero.mp this)

theorem pathId_ne_empty (p : List String) : pathId p ≠ "" := by
  intro h
  have := congrArg String.data h
  rw [pathId_data] at this
  simp at this

theorem goodSegB_natToString (n : Nat) : goodSegB (natToString n) = true := by
  obtain ⟨hne, hdig, -⟩ := natToStringAux_spec (n + 1) n (by omega)
  simp only [goodSegB, Bool.and_eq_true, Bool.not_eq_true']
  constructor
  · rw [beq_eq_false_iff_ne]
    intro h
    exact hne (congrArg String.data h)
  · rw [contains_false_iff]
    intro hmem
    exact absurd (hdig '-' hmem) (by decide)

theorem natToString_inj (m n : Nat) (h : natToString m = natToString n) : m = n := by
  have hm := (natToStringAux_spec (m + 1) m (by omega)).2.2
  have hn := (natToStringAux_spec (n + 1) n (by omega)).2.2
  have hdata : natToStringAux (m + 1) m = natToStringAux (n + 1) n := congrArg String.data h
  rw [hdata, hn] at hm
  omega

/-! ## The representable class of JSON values (claim C1) -/

def allDigitKeysB : JFields → Bool
  | .nil => true
  | .cons k _ t => isDigitKey k && allDigitKeysB t

def isArrB : JValue → Bool
  | .jarr _ => true
  | _ => false

mutual
/-- Values whose graph encoding is faithfully reversed by `buildJson`:
object keys are nonempty, dash-free and pairwise distinct, a nonempty
object does not have all-numeric keys, and no array occurs directly as an
element of an array. -/
def rep : JValue → Bool
  | .jnull => true
  | .jbool _ => true
  | .jnum _ => true
  | .jstr _ => true
  | .jarr items => repItems items
  | .jobj fields => repFields fields && ((flen fields == 0) || !allDigitKeysB fields)

def repItems : JItems → Bool
  | .nil => true
  | .cons h t => !isArrB h && rep h && repItems t

def repFields : JFields → Bool
  | .nil => true
  | .cons k v t => goodSegB k && !(fkeys t).contains k && rep v && repFields t
end

mutual
def jsize : JValue → Nat
  | .jarr items => 1 + isizeJ items
  | .jobj fields => 1 + fsizeJ fields
  | _ => 1

def isizeJ : JItems → Nat
  | .nil => 0
  | .cons h t => 1 + jsize h + isizeJ t

def fsizeJ : JFields → Nat
  | .nil => 0
  | .cons _ v t => 1 + jsize v + fsizeJ t
end

theorem jsize_pos : ∀ v : JValue, 1 ≤ jsize v := by
  intro v
  cases v <;> simp [jsize]

/-! ## The edges a node's children contribute, by key and item index -/

def itemEdges (src : String) (k : String) (pk : List String) : JItems → Nat → List GEdge
  | .nil, _ => []
  | .cons _ t, i =>
    mkEdge src k (pathId (pk ++ [natToString i])) k :: itemEdges src k pk t (i + 1)

def fieldEdges (p : List String) (k : String) : JValue → List GEdge
  | .jobj _ => [mkEdge (pathId p) k (pathId (p ++ [k])) k]
  | .jarr items => itemEdges (pathId p) k (p ++ [k]) items 0
  | _ => []

def childEdges (p : List String) : JFields → List GEdge
  | .nil => []
  | .cons k v t => fieldEdges p k v ++ childEdges p t

/-! ## The embedding predicate: the graph `G` contains, at path `p`, the
node/edge encoding that `generateGraph` produces for a value -/

/-- Node-level facts for an object placed at path `p`: looking up its path
id finds its node, and the edges with that source are exactly its child
edges. -/
def EmbNode (G : Graph) (p : List String) (fields : JFields) : Prop :=
  (∃ syn, findNode G (pathId p) = some ⟨pathId p, rowsOf fields, syn, false⟩) ∧
  G.edges.filter (fun e => e.source == pathId p) = childEdges p fields

mutual
def EmbFields (G : Graph) (p : List String) : JFields → Prop
  | .nil => True
  | .cons k v t => EmbVal G p k v ∧ EmbFields G p t

def EmbVal (G : Graph) (p : List String) (k : String) : JValue → Prop
  | .jobj f => EmbNode G (p ++ [k]) f ∧ EmbFields G (p ++ [k]) f
  | .jarr items => EmbItems G (p ++ [k]) k items 0
  | _ => True

def EmbItems (G : Graph) (pk : List String) (k : String) : JItems → Nat → Prop
  | .nil, _ => True
  | .cons item t, i => EmbItem G (pk ++ [natToString i]) item ∧ EmbItems G pk k t (i + 1)

def EmbItem (G : Graph) (pki : List String) : JValue → Prop
  | .jobj f => EmbNode G pki f ∧ EmbFields G pki f
  | .jarr _ => False
  | prim => findNode G (pathId pki) = some ⟨pathId pki, [primRow prim], false, true⟩
end

def EmbObj (G : Graph) (p : List String) (fields : JFields) : Prop :=
  EmbNode G p fields ∧ EmbFields G p fields

/-! ## Accumulator append for the object branch -/

def jfAppend : JFields → JFields → JFields
  | .nil, g2 => g2
  | .cons k v t, g2 => .cons k v (jfAppend t g2)

theorem jfAppend_nil (f : JFields) : jfAppend JFields.nil f = f := rfl

theorem jsObjSet_append : ∀ (acc : JFields) (k : String) (v : JValue),
    k ∉ fkeys acc → jsObjSet acc k v = jfAppend acc (.cons k v .nil)
  | .nil, _, _, _ => rfl
  | .cons k2 v2 t, k, v, h => by
    simp only [fkeys, List.mem_cons] at h
    push_neg at h
    simp only [jsObjSet, jfAppend]
    rw [if_neg (fun he => h.1 he.symm), jsObjSet_append t k v h.2]

theorem jfAppend_single_cons : ∀ (acc : JFields) (k : String) (v : JValue) (t : JFields),
    jfAppend (jfAppend acc (.cons k v .nil)) t = jfAppend acc (.cons k v t)
  | .nil, _, _, _ => rfl
  | .cons k2 v2 t2, k, v, t => by
    simp only [jfAppend, jfAppend_single_cons t2 k v t]

theorem fkeys_jfAppend : ∀ (a b : JFields), fkeys (jfAppend a b) = fkeys a ++ fkeys b
  | .nil, _ => rfl
  | .cons k v t, b => by
    simp only [jfAppend, fkeys, fkeys_jfAppend t b, List.cons_append]

/-! ## Extraction lemmas for the representable class -/

theorem repFields_head {k : String} {v : JValue} {t : JFields}
    (h : repFields (.cons k v t) = true) :
    goodSegB k = true ∧ k ∉ fkeys t ∧ rep v = true ∧ repFields t = true := by
  have h2 : (goodSegB k && !(fkeys t).contains k && rep v && repFields t) = true := h
  simp only [Bool.and_eq_true, Bool.not_eq_true'] at h2
  exact ⟨h2.1.1.1, (contains_false_iff _ _).mp h2.1.1.2, h2.1.2, h2.2⟩

theorem repItems_head {h : JValue} {t : JItems} (hr : repItems (.cons h t) = true) :
    isArrB h = false ∧ rep h = true ∧ repItems t = true := by
  have h2 : (!isArrB h && rep h && repItems t) = true := hr
  simp only [Bool.and_eq_true, Bool.not_eq_true'] at h2
  exact ⟨h2.1.1, h2.1.2, h2.2⟩

theorem rep_obj {fields : JFields} (h : rep (.jobj fields) = true) :
    repFields fields = true ∧ (flen fields = 0 ∨ allDigitKeysB fields = false) := by
  have h2 : (repFields fields && ((flen fields == 0) || !allDigitKeysB fields)) = true := h
  simp only [Bool.and_eq_true, Bool.or_eq_true, Bool.not_eq_true', beq_iff_eq] at h2
  exact ⟨h2.1, h2.2⟩

theorem rep_arr {items : JItems} (h : rep (.jarr items) = true) : repItems items = true := h

theorem fkeys_good : ∀ (fields : JFields), repFields fields = true →
    ∀ k ∈ fkeys fields, goodSegB k = true
  | .nil, _, k, hk => by simp [fkeys] at hk
  | .cons k2 v t, h, k, hk => by
    obtain ⟨hg, -, -, ht⟩ := repFields_head h
    simp only [fkeys, List.mem_cons] at hk
    rcases hk with rfl | hk
    · exact hg
    · exact fkeys_good t ht k hk

/-- The wrapper flag computed for an array element
(`item === null || typeof item !== 'object'`). -/
def itemWrapFlag : JValue → Bool
  | .jarr _ => false
  | .jobj _ => false
  | _ => true

/-! ## Shape of the emission of `processValue`

Every node `generateGraph` pushes while processing a value rooted at path
`b` is named by a good extension of `b`; every edge's source is the given
parent source or such an extension, every edge's target is such an
extension, and (when a parent source and handle are present) every pushed
node is the target of some pushed edge. -/

def ShapeVal (hsr : Bool) (v : JValue) (b : List String) (es eh : Option String)
    (lbl : String) (w : Bool) : Prop :=
  (∀ n ∈ (processValue hsr v (pathId b) es eh lbl w).1,
    ∃ q, goodPath q = true ∧ n.id = pathId (b ++ q)) ∧
  (∀ e ∈ (processValue hsr v (pathId b) es eh lbl w).2,
    (∃ s, es = some s ∧ e.source = s) ∨
    (∃ q, goodPath q = true ∧ e.source = pathId (b ++ q))) ∧
  (∀ e ∈ (processValue hsr v (pathId b) es eh lbl w).2,
    ∃ q, goodPath q = true ∧ e.target = pathId (b ++ q)) ∧
  (∀ s h, es = some s → eh = some h → s ≠ "" → h ≠ "" →
    ∀ n ∈ (processValue hsr v (pathId b) es eh lbl w).1,
      ∃ e ∈ (processValue hsr v (pathId b) es eh lbl w).2, e.target = n.id)

def ShapeItems (hsr : Bool) (items : JItems) (bk : List String) (es eh : Option String)
    (lbl : String) (idx : Nat) : Prop :=
  (∀ n ∈ (processItems hsr items (pathId bk) es eh lbl idx).1,
    ∃ j q, idx ≤ j ∧ goodPath q = true ∧ n.id = pathId ((bk ++ [natToString j]) ++ q)) ∧
  (∀ e ∈ (processItems hsr items (pathId bk) es eh lbl idx).2,
    (∃ s, es = some s ∧ e.source = s) ∨
    (∃ j q, idx ≤ j ∧ goodPath q = true ∧ e.source = pathId ((bk ++ [natToString j]) ++ q))) ∧
  (∀ e ∈ (processItems hsr items (pathId bk) es eh lbl idx).2,
    ∃ j q, idx ≤ j ∧ goodPath q = true ∧ e.target = pathId ((bk ++ [natToString j]) ++ q)) ∧
  (∀ s h, es = some s → eh = some h → s ≠ "" → h ≠ "" →
    ∀ n ∈ (processItems hsr items (pathId bk) es eh lbl idx).1,
      ∃ e ∈ (processItems hsr items (pathId bk) es eh lbl idx).2, e.target = n.id)

def ShapeChildren (hsr : Bool) (fields : JFields) (b : List String) : Prop :=
  (∀ n ∈ (processChildren hsr fields (pathId b)).1,
    ∃ k q, k ∈ fkeys fields ∧ goodPath q = true ∧ n.id = pathId ((b ++ [k]) ++ q)) ∧
  (∀ e ∈ (processChildren hsr fields (pathId b)).2,
    e.source = pathId b ∨
    (∃ k q, k ∈ fkeys fields ∧ goodPath q = true ∧ e.source = pathId ((b ++ [k]) ++ q))) ∧
  (∀ e ∈ (processChildren hsr fields (pathId b)).2,
    ∃ k q, k ∈ fkeys fields ∧ goodPath q = true ∧ e.target = pathId ((b ++ [k]) ++ q)) ∧
  (∀ n ∈ (processChildren hsr fields (pathId b)).1,
    ∃ e ∈ (processChildren hsr fields (pathId b)).2, e.target = n.id)

theorem goodPath_singleton (s : String) (h : goodSegB s = true) : goodPath [s] = true := by
  simp [goodPath, h]

theorem edgeIfParent_mem (es eh : Option String) (tgt lblv : String) :
    ∀ e ∈ edgeIfParent es eh tgt lblv,
      ∃ s h, es = some s ∧ eh = some h ∧ e = mkEdge s h tgt lblv := by
  intro e he
  unfold edgeIfParent at he
  split at he
  next s h =>
    split at he
    · simp at he
    · simp only [List.mem_singleton] at he
      exact ⟨s, h, rfl, rfl, he⟩
  next => simp at he

theorem edgeIfParent_eq_some (s h tgt lblv : String) (hs : s ≠ "") (hh : h ≠ "") :
    edgeIfParent (some s) (some h) tgt lblv = [mkEdge s h tgt lblv] := by
  have hcond : ¬(s = "" ∨ h = "") := by
    push_neg
    exact ⟨hs, hh⟩
  show (if s = "" ∨ h = "" then ([] : List GEdge) else [mkEdge s h tgt lblv]) = _
  rw [if_neg hcond]

theorem shapeVal_prim (hsr : Bool) (v : JValue) (b : List String) (es eh : Option String)
    (lbl : String) (w : Bool) (hp : isPrim v = true) :
    ShapeVal hsr v b es eh lbl w := by
  have hemit : processValue hsr v (pathId b) es eh lbl w =
      ([⟨pathId b, [primRow v], false, w⟩], edgeIfParent es eh (pathId b) lbl) := by
    cases v
    · rfl
    · rfl
    · rfl
    · rfl
    · exact Bool.noConfusion hp
    · exact Bool.noConfusion hp
  unfold ShapeVal
  rw [hemit]
  refine ⟨?_, ?_, ?_, ?_⟩
  · intro n hn
    simp only [List.mem_singleton] at hn
    subst hn
    refine ⟨[], rfl, ?_⟩
    rw [List.append_nil]
  · intro e he
    obtain ⟨s, h, hes, heh, rfl⟩ := edgeIfParent_mem es eh _ _ e he
    exact Or.inl ⟨s, hes, rfl⟩
  · intro e he
    obtain ⟨s, h, hes, heh, rfl⟩ := edgeIfParent_mem es eh _ _ e he
    refine ⟨[], rfl, ?_⟩
    rw [List.append_nil]
    rfl
  · intro s h hes heh hs hh n hn
    subst hes
    subst heh
    simp only [List.mem_singleton] at hn
    subst hn
    rw [edgeIfParent_eq_some s h _ _ hs hh]
    exact ⟨mkEdge s h (pathId b) lbl, List.mem_singleton.mpr rfl, rfl⟩

theorem shape_all : ∀ N : Nat,
    (∀ (hsr : Bool) (v : JValue) (b : List String) (es eh : Option String) (lbl : String)
      (w : Bool), jsize v ≤ N → rep v = true → goodPath b = true →
        ShapeVal hsr v b es eh lbl w) ∧
    (∀ (hsr : Bool) (items : JItems) (bk : List String) (es eh : Option String) (lbl : String)
      (idx : Nat), isizeJ items ≤ N → repItems items = true → goodPath bk = true →
        ShapeItems hsr items bk es eh lbl idx) ∧
    (∀ (hsr : Bool) (fields : JFields) (b : List String),
      fsizeJ fields ≤ N → repFields fields = true → goodPath b = true →
        ShapeChildren hsr fields b) := by
  intro N
  induction N with
  | zero =>
    refine ⟨?_, ?_, ?_⟩
    · intro hsr v b es eh lbl w hsz _ _
      exact absurd hsz (by have := jsize_pos v; omega)
    · intro hsr items bk es eh lbl idx hsz _ _
      cases items with
      | nil =>
        exact ⟨fun n hn => by simp [processItems] at hn,
          fun e he => by simp [processItems] at he,
          fun e he => by simp [processItems] at he,
          fun s h _ _ _ _ n hn => by simp [processItems] at hn⟩
      | cons item t =>
        exact absurd hsz (by
          have : isizeJ (JItems.cons item t) = 1 + jsize item + isizeJ t := rfl
          omega)
    · intro hsr fields b hsz _ _
      cases fields with
      | nil =>
        exact ⟨fun n hn => by simp [processChildren] at hn,
          fun e he => by simp [processChildren] at he,
          fun e he => by simp [processChildren] at he,
          fun n hn => by simp [processChildren] at hn⟩
      | cons k v t =>
        exact absurd hsz (by
          have : fsizeJ (JFields.cons k v t) = 1 + jsize v + fsizeJ t := rfl
          omega)
  | succ N ih =>
    obtain ⟨ihV, ihI, ihF⟩ := ih
    refine ⟨?_, ?_, ?_⟩
    · -- values
      intro hsr v b es eh lbl w hsz hrep hb
      cases v with
      | jnull => exact shapeVal_prim hsr _ b es eh lbl w rfl
      | jbool bb => exact shapeVal_prim hsr _ b es eh lbl w rfl
      | jnum n => exact shapeVal_prim hsr _ b es eh lbl w rfl
      | jstr s => exact shapeVal_prim hsr _ b es eh lbl w rfl
      | jarr items =>
        have hsz2 : isizeJ items ≤ N := by
          have : jsize (JValue.jarr items) = 1 + isizeJ items := rfl
          omega
        have hI := ihI hsr items b es eh lbl 0 hsz2 (rep_arr hrep) hb
        obtain ⟨hIN, hIE, hIT, hIC⟩ := hI
        have hemit : processValue hsr (.jarr items) (pathId b) es eh lbl w =
            processItems hsr items (pathId b) es eh lbl 0 := rfl
        unfold ShapeVal
        rw [hemit]
        refine ⟨?_, ?_, ?_, ?_⟩
        · intro n hn
          obtain ⟨j, q, -, hq, hid⟩ := hIN n hn
          refine ⟨[natToString j] ++ q, ?_, ?_⟩
          · rw [goodPath_append]
            exact ⟨goodPath_singleton _ (goodSegB_natToString j), hq⟩
          · rw [hid, List.append_assoc]
        · intro e he
          rcases hIE e he with h | ⟨j, q, -, hq, hsrc⟩
          · exact Or.inl h
          · refine Or.inr ⟨[natToString j] ++ q, ?_, ?_⟩
            · rw [goodPath_append]
              exact ⟨goodPath_singleton _ (goodSegB_natToString j), hq⟩
            · rw [hsrc, List.append_assoc]
        · intro e he
          obtain ⟨j, q, -, hq, htgt⟩ := hIT e he
          refine ⟨[natToString j] ++ q, ?_, ?_⟩
          · rw [goodPath_append]
            exact ⟨goodPath_singleton _ (goodSegB_natToString j), hq⟩
          · rw [htgt, List.append_assoc]
        · intro s h hes heh hs hh n hn
          exact hIC s h hes heh hs hh n hn
      | jobj fields =>
        have hsz2 : fsizeJ fields ≤ N := by
          have : jsize (JValue.jobj fields) = 1 + fsizeJ fields := rfl
          omega
        have hF := ihF hsr fields b hsz2 (rep_obj hrep).1 hb
        obtain ⟨hFN, hFE, hFT, hFC⟩ := hF
        have hemit : processValue hsr (.jobj fields) (pathId b) es eh lbl w =
            (⟨pathId b, rowsOf fields, (pathId b == "root") && hsr, w⟩ ::
              (processChildren hsr fields (pathId b)).1,
             edgeIfParent es eh (pathId b) lbl ++ (processChildren hsr fields (pathId b)).2) :=
          rfl
        unfold ShapeVal
        rw [hemit]
        have hkey : ∀ k q, k ∈ fkeys fields → goodPath q = true →
            goodPath ([k] ++ q) = true := by
          intro k q hk hq
          rw [goodPath_append]
          exact ⟨goodPath_singleton _ (fkeys_good fields (rep_obj hrep).1 k hk), hq⟩
        refine ⟨?_, ?_, ?_, ?_⟩
        · intro n hn
          rcases List.mem_cons.mp hn with rfl | hn
          · refine ⟨[], rfl, ?_⟩
            rw [List.append_nil]
          · obtain ⟨k, q, hk, hq, hid⟩ := hFN n hn
            exact ⟨[k] ++ q, hkey k q hk hq, by rw [hid, List.append_assoc]⟩
        · intro e he
          rcases List.mem_append.mp he with he | he
          · obtain ⟨s, h, hes, heh, rfl⟩ := edgeIfParent_mem es eh _ _ e he
            exact Or.inl ⟨s, hes, rfl⟩
          · rcases hFE e he with h | ⟨k, q, hk, hq, hsrc⟩
            · refine Or.inr ⟨[], rfl, ?_⟩
              rw [List.append_nil]
              exact h
            · exact Or.inr ⟨[k] ++ q, hkey k q hk hq, by rw [hsrc, List.append_assoc]⟩
        · intro e he
          rcases List.mem_append.mp he with he | he
          · obtain ⟨s, h, hes, heh, rfl⟩ := edgeIfParent_mem es eh _ _ e he
            refine ⟨[], rfl, ?_⟩
            rw [List.append_nil]
            rfl
          · obtain ⟨k, q, hk, hq, htgt⟩ := hFT e he
            exact ⟨[k] ++ q, hkey k q hk hq, by rw [htgt, List.append_assoc]⟩
        · intro s h hes heh hs hh n hn
          subst hes
          subst heh
          rcases List.mem_cons.mp hn with rfl | hn
          · refine ⟨mkEdge s h (pathId b) lbl, ?_, rfl⟩
            rw [edgeIfParent_eq_some s h _ _ hs hh]
            exact List.mem_append.mpr (Or.inl (List.mem_singleton.mpr rfl))
          · obtain ⟨e, he, htgt⟩ := hFC n hn
            exact ⟨e, List.mem_append.mpr (Or.inr he), htgt⟩
    · -- item lists
      intro hsr items bk es eh lbl idx hsz hrep hbk
      cases items with
      | nil =>
        exact ⟨fun n hn => by simp [processItems] at hn,
          fun e he => by simp [processItems] at he,
          fun e he => by simp [processItems] at he,
          fun s h _ _ _ _ n hn => by simp [processItems] at hn⟩
      | cons item t =>
        obtain ⟨hnarr, hrepi, hrept⟩ := repItems_head hrep
        have hsz1 : jsize item ≤ N := by
          have : isizeJ (JItems.cons item t) = 1 + jsize item + isizeJ t := rfl
          omega
        have hsz2 : isizeJ t ≤ N := by
          have : isizeJ (JItems.cons item t) = 1 + jsize item + isizeJ t := rfl
          omega
        have hbki : goodPath (bk ++ [natToString idx]) = true := by
          rw [goodPath_append]
          exact ⟨hbk, goodPath_singleton _ (goodSegB_natToString idx)⟩
        have hV := ihV hsr item (bk ++ [natToString idx]) es eh lbl
          (itemWrapFlag item) hsz1 hrepi hbki
        obtain ⟨hVN, hVE, hVT, hVC⟩ := hV
        have hI := ihI hsr t bk es eh lbl (idx + 1) hsz2 hrept hbk
        obtain ⟨hIN, hIE, hIT, hIC⟩ := hI
        have hemit : processItems hsr (.cons item t) (pathId bk) es eh lbl idx =
            ((processValue hsr item (pathId bk ++ "-" ++ natToString idx) es eh lbl
              (itemWrapFlag item)).1 ++
              (processItems hsr t (pathId bk) es eh lbl (idx + 1)).1,
             (processValue hsr item (pathId bk ++ "-" ++ natToString idx) es eh lbl
              (itemWrapFlag item)).2 ++
              (processItems hsr t (pathId bk) es eh lbl (idx + 1)).2) := by
          cases item <;> rfl
        have hpid : pathId bk ++ "-" ++ natToString idx = pathId (bk ++ [natToString idx]) :=
          (pathId_append bk (natToString idx)).symm
        rw [hpid] at hemit
        unfold ShapeItems
        rw [hemit]
        refine ⟨?_, ?_, ?_, ?_⟩
        · intro n hn
          rcases List.mem_append.mp hn with hn | hn
          · obtain ⟨q, hq, hid⟩ := hVN n hn
            exact ⟨idx, q, le_refl _, hq, by rw [hid]⟩
          · obtain ⟨j, q, hj, hq, hid⟩ := hIN n hn
            exact ⟨j, q, by omega, hq, hid⟩
        · intro e he
          rcases List.mem_append.mp he with he | he
          · rcases hVE e he with h | ⟨q, hq, hsrc⟩
            · exact Or.inl h
            · exact Or.inr ⟨idx, q, le_refl _, hq, by rw [hsrc]⟩
          · rcases hIE e he with h | ⟨j, q, hj, hq, hsrc⟩
            · exact Or.inl h
            · exact Or.inr ⟨j, q, by omega, hq, hsrc⟩
        · intro e he
          rcases List.mem_append.mp he with he | he
          · obtain ⟨q, hq, htgt⟩ := hVT e he
            exact ⟨idx, q, le_refl _, hq, by rw [htgt]⟩
          · obtain ⟨j, q, hj, hq, htgt⟩ := hIT e he
            exact ⟨j, q, by omega, hq, htgt⟩
        · intro s h hes heh hs hh n hn
          rcases List.mem_append.mp hn with hn | hn
          · obtain ⟨e, he, htgt⟩ := hVC s h hes heh hs hh n hn
            exact ⟨e, List.mem_append.mpr (Or.inl he), htgt⟩
          · obtain ⟨e, he, htgt⟩ := hIC s h hes heh hs hh n hn
            exact ⟨e, List.mem_append.mpr (Or.inr he), htgt⟩
    · -- field lists
      intro hsr fields b hsz hrep hb
      cases fields with
      | nil =>
        exact ⟨fun n hn => by simp [processChildren] at hn,
          fun e he => by simp [processChildren] at he,
          fun e he => by simp [processChildren] at he,
          fun n hn => by simp [processChildren] at hn⟩
      | cons k v t =>
        obtain ⟨hkg, hknot, hrepv, hrept⟩ := repFields_head hrep
        have hsz1 : jsize v ≤ N := by
          have : fsizeJ (JFields.cons k v t) = 1 + jsize v + fsizeJ t := rfl
          omega
        have hsz2 : fsizeJ t ≤ N := by
          have : fsizeJ (JFields.cons k v t) = 1 + jsize v + fsizeJ t := rfl
          omega
        have hbk : goodPath (b ++ [k]) = true := by
          rw [goodPath_append]
          exact ⟨hb, goodPath_singleton _ hkg⟩
        have hF := ihF hsr t b hsz2 hrept hb
        obtain ⟨hFN, hFE, hFT, hFC⟩ := hF
        have hemit : processChildren hsr (.cons k v t) (pathId b) =
            ((if isContainer v then
                processValue hsr v (pathId b ++ "-" ++ k) (some (pathId b)) (some k) k false
              else ([], [])).1 ++ (processChildren hsr t (pathId b)).1,
             (if isContainer v then
                processValue hsr v (pathId b ++ "-" ++ k) (some (pathId b)) (some k) k false
              else ([], [])).2 ++ (processChildren hsr t (pathId b)).2) := rfl
        have hpid : pathId b ++ "-" ++ k = pathId (b ++ [k]) := (pathId_append b k).symm
        rw [hpid] at hemit
        unfold ShapeChildren
        rw [hemit]
        by_cases hcont : isContainer v = true
        · rw [if_pos hcont] at *
          have hV := ihV hsr v (b ++ [k]) (some (pathId b)) (some k) k false hsz1 hrepv hbk
          obtain ⟨hVN, hVE, hVT, hVC⟩ := hV
          refine ⟨?_, ?_, ?_, ?_⟩
          · intro n hn
            rcases List.mem_append.mp hn with hn | hn
            · obtain ⟨q, hq, hid⟩ := hVN n hn
              exact ⟨k, q, List.mem_cons_self _ _, hq, hid⟩
            · obtain ⟨k2, q, hk2, hq, hid⟩ := hFN n hn
              exact ⟨k2, q, List.mem_cons_of_mem _ hk2, hq, hid⟩
          · intro e he
            rcases List.mem_append.mp he with he | he
            · rcases hVE e he with ⟨s, hes, hsrc⟩ | ⟨q, hq, hsrc⟩
              · exact Or.inl (by rw [hsrc]; injection hes with hes2; rw [← hes2])
              · exact Or.inr ⟨k, q, List.mem_cons_self _ _, hq, hsrc⟩
            · rcases hFE e he with h | ⟨k2, q, hk2, hq, hsrc⟩
              · exact Or.inl h
              · exact Or.inr ⟨k2, q, List.mem_cons_of_mem _ hk2, hq, hsrc⟩
          · intro e he
            rcases List.mem_append.mp he with he | he
            · obtain ⟨q, hq, htgt⟩ := hVT e he
              exact ⟨k, q, List.mem_cons_self _ _, hq, htgt⟩
            · obtain ⟨k2, q, hk2, hq, htgt⟩ := hFT e he
              exact ⟨k2, q, List.mem_cons_of_mem _ hk2, hq, htgt⟩
          · intro n hn
            rcases List.mem_append.mp hn with hn | hn
            · obtain ⟨e, he, htgt⟩ := hVC (pathId b) k rfl rfl (pathId_ne_empty b)
                (goodSegB_ne_empty k hkg) n hn
              exact ⟨e, List.mem_append.mpr (Or.inl he), htgt⟩
            · obtain ⟨e, he, htgt⟩ := hFC n hn
              exact ⟨e, List.mem_append.mpr (Or.inr he), htgt⟩
        · rw [if_neg hcont] at *
          refine ⟨?_, ?_, ?_, ?_⟩
          · intro n hn
            rcases List.mem_append.mp hn with hn | hn
            · simp at hn
            · obtain ⟨k2, q, hk2, hq, hid⟩ := hFN n hn
              exact ⟨k2, q, List.mem_cons_of_mem _ hk2, hq, hid⟩
          · intro e he
            rcases List.mem_append.mp he with he | he
            · simp at he
            · rcases hFE e he with h | ⟨k2, q, hk2, hq, hsrc⟩
              · exact Or.inl h
              · exact Or.inr ⟨k2, q, List.mem_cons_of_mem _ hk2, hq, hsrc⟩
          · intro e he
            rcases List.mem_append.mp he with he | he
            · simp at he
            · obtain ⟨k2, q, hk2, hq, htgt⟩ := hFT e he
              exact ⟨k2, q, List.mem_cons_of_mem _ hk2, hq, htgt⟩
          · intro n hn
            rcases List.mem_append.mp hn with hn | hn
            · simp at hn
            · obtain ⟨e, he, htgt⟩ := hFC n hn
              exact ⟨e, List.mem_append.mpr (Or.inr he), htgt⟩

/-! ## Unique lookup and edge filtering for generated graphs -/

theorem findNode_unique (G : Graph) (n : GNode) (hmem : n ∈ G.nodes)
    (huniq : ∀ m ∈ G.nodes, m.id = n.id → m = n) : findNode G n.id = some n := by
  unfold findNode
  cases hf : G.nodes.reverse.find? (fun m => m.id == n.id) with
  | none =>
    exfalso
    have := List.find?_eq_none.mp hf n (List.mem_reverse.mpr hmem)
    simp at this
  | some m =>
    have h1 := List.find?_some hf
    have h2 := List.mem_of_find?_eq_some hf
    have h3 : m.id = n.id := by simpa using h1
    rw [huniq m (List.mem_reverse.mp h2) h3]

theorem filter_src_nil (pid : String) (l : List GEdge)
    (h : ∀ e ∈ l, e.source ≠ pid) :
    l.filter (fun e => e.source == pid) = [] := by
  apply List.filter_eq_nil_iff.mpr
  intro e he
  simpa using h e he

theorem pathId_subtree_ne (p : List String) (x y : String) (qx qy : List String)
    (hp : goodPath p = true) (hx : goodSegB x = true) (hy : goodSegB y = true)
    (hqx : goodPath qx = true) (hqy : goodPath qy = true) (hne : x ≠ y) :
    pathId ((p ++ [x]) ++ qx) ≠ pathId ((p ++ [y]) ++ qy) := by
  intro h
  have hg1 : goodPath ((p ++ [x]) ++ qx) = true := by
    rw [goodPath_append, goodPath_append]
    exact ⟨⟨hp, goodPath_singleton _ hx⟩, hqx⟩
  have hg2 : goodPath ((p ++ [y]) ++ qy) = true := by
    rw [goodPath_append, goodPath_append]
    exact ⟨⟨hp, goodPath_singleton _ hy⟩, hqy⟩
  have heq := pathId_inj _ _ hg1 hg2 h
  rw [List.append_assoc, List.append_assoc] at heq
  have h2 := List.append_cancel_left heq
  simp only [List.singleton_append, List.cons.injEq] at h2
  exact hne h2.1

theorem pathId_parent_ne_subtree (p : List String) (x : String) (qx : List String)
    (hp : goodPath p = true) (hx : goodSegB x = true) (hqx : goodPath qx = true) :
    pathId p ≠ pathId ((p ++ [x]) ++ qx) := by
  rw [List.append_assoc]
  intro h
  exact pathId_ext_ne p ([x] ++ qx) hp
    (by rw [goodPath_append]; exact ⟨goodPath_singleton _ hx, hqx⟩) (by simp) h.symm

/-- Convenience instantiations of `shape_all` at the exact size. -/
theorem shapeVal_of (hsr : Bool) (v : JValue) (b : List String) (es eh : Option String)
    (lbl : String) (w : Bool) (hrep : rep v = true) (hb : goodPath b = true) :
    ShapeVal hsr v b es eh lbl w :=
  (shape_all (jsize v)).1 hsr v b es eh lbl w (le_refl _) hrep hb

theorem shapeItems_of (hsr : Bool) (items : JItems) (bk : List String) (es eh : Option String)
    (lbl : String) (idx : Nat) (hrep : repItems items = true) (hbk : goodPath bk = true) :
    ShapeItems hsr items bk es eh lbl idx :=
  (shape_all (isizeJ items)).2.1 hsr items bk es eh lbl idx (le_refl _) hrep hbk

theorem shapeChildren_of (hsr : Bool) (fields : JFields) (b : List String)
    (hrep : repFields fields = true) (hb : goodPath b = true) :
    ShapeChildren hsr fields b :=
  (shape_all (fsizeJ fields)).2.2 hsr fields b (le_refl _) hrep hb

theorem itemWrapFlag_prim (v : JValue) (h : isPrim v = true) : itemWrapFlag v = true := by
  cases v
  · rfl
  · rfl
  · rfl
  · rfl
  · exact Bool.noConfusion h
  · exact Bool.noConfusion h

/-- The sources appearing in a children emission are never the grandparent
id: they are the object's own id or deeper. -/
theorem children_src_ne (hsr : Bool) (fields : JFields) (base : List String) (p : List String)
    (r : List String) (hbase : base = p ++ r) (hr : r ≠ []) (hgr : goodPath r = true)
    (hrep : repFields fields = true) (hgp : goodPath p = true) (hgb : goodPath base = true) :
    ∀ e ∈ (processChildren hsr fields (pathId base)).2, e.source ≠ pathId p := by
  intro e he
  have hsh := (shapeChildren_of hsr fields base hrep hgb).2.1
  rcases hsh e he with hsrc | ⟨k2, q, hk2, hq, hsrc⟩
  · rw [hsrc, hbase]
    exact pathId_ext_ne p r hgp hgr hr
  · rw [hsrc, hbase]
    have hassoc : ((p ++ r) ++ [k2]) ++ q = p ++ (r ++ ([k2] ++ q)) := by
      simp [List.append_assoc]
    rw [hassoc]
    have hgq : goodPath (r ++ ([k2] ++ q)) = true := by
      rw [goodPath_append, goodPath_append]
      exact ⟨hgr, goodPath_singleton _ (fkeys_good fields hrep k2 hk2), hq⟩
    exact pathId_ext_ne p _ hgp hgq (by simp [hr])

/-- Filtering the emission of one non-array container or primitive child,
placed at `pki = p ++ r`, by the grandparent source `pathId p` keeps
exactly its top edge. -/
theorem filt_one (hsr : Bool) (item : JValue) (p : List String) (k : String) (r : List String)
    (w : Bool) (hrepi : rep item = true) (hnarr : isArrB item = false)
    (hgp : goodPath p = true) (hk : goodSegB k = true)
    (hr : r ≠ []) (hgr : goodPath r = true) :
    (processValue hsr item (pathId (p ++ r)) (some (pathId p)) (some k) k w).2.filter
      (fun e => e.source == pathId p) = [mkEdge (pathId p) k (pathId (p ++ r)) k] := by
  have hgpr : goodPath (p ++ r) = true := by
    rw [goodPath_append]
    exact ⟨hgp, hgr⟩
  have hif := edgeIfParent_eq_some (pathId p) k (pathId (p ++ r)) k
    (pathId_ne_empty p) (goodSegB_ne_empty k hk)
  cases item with
  | jarr i2 => exact Bool.noConfusion hnarr
  | jobj f2 =>
    have hemit : (processValue hsr (.jobj f2) (pathId (p ++ r))
        (some (pathId p)) (some k) k w).2 =
        edgeIfParent (some (pathId p)) (some k) (pathId (p ++ r)) k ++
          (processChildren hsr f2 (pathId (p ++ r))).2 := rfl
    rw [hemit, List.filter_append, hif]
    have hz : ((processChildren hsr f2 (pathId (p ++ r))).2.filter
        (fun e => e.source == pathId p)) = [] :=
      filter_src_nil _ _ (children_src_ne hsr f2 (p ++ r) p r rfl hr hgr
        (rep_obj hrepi).1 hgp hgpr)
    rw [hz, List.append_nil]
    simp [mkEdge]
  | jnull => simp [processValue, hif, mkEdge]
  | jbool b2 => simp [processValue, hif, mkEdge]
  | jnum n2 => simp [processValue, hif, mkEdge]
  | jstr s2 => simp [processValue, hif, mkEdge]

/-- Filtering an item-list emission by the array's parent keeps exactly
the per-item top edges, in item order. -/
theorem filt_items (hsr : Bool) (p : List String) (k : String)
    (hgp : goodPath p = true) (hk : goodSegB k = true) :
    ∀ (items : JItems) (idx : Nat), repItems items = true →
      (processItems hsr items (pathId (p ++ [k])) (some (pathId p)) (some k) k idx).2.filter
        (fun e => e.source == pathId p) = itemEdges (pathId p) k (p ++ [k]) items idx
  | .nil, idx, _ => rfl
  | .cons item t, idx, hrep2 => by
    obtain ⟨hnarr, hrepi, hrept⟩ := repItems_head hrep2
    have hemit : (processItems hsr (.cons item t) (pathId (p ++ [k]))
        (some (pathId p)) (some k) k idx).2 =
        (processValue hsr item (pathId (p ++ [k]) ++ "-" ++ natToString idx)
          (some (pathId p)) (some k) k (itemWrapFlag item)).2 ++
        (processItems hsr t (pathId (p ++ [k])) (some (pathId p)) (some k) k (idx + 1)).2 := by
      cases item <;> rfl
    have hpid : pathId (p ++ [k]) ++ "-" ++ natToString idx =
        pathId (p ++ ([k] ++ [natToString idx])) := by
      rw [← List.append_assoc]
      exact (pathId_append (p ++ [k]) (natToString idx)).symm
    rw [hemit, hpid, List.filter_append,
      filt_items hsr p k hgp hk t (idx + 1) hrept]
    have hone := filt_one hsr item p k ([k] ++ [natToString idx]) (itemWrapFlag item)
      hrepi hnarr hgp hk (by simp)
      (by rw [goodPath_append]
          exact ⟨goodPath_singleton _ hk, goodPath_singleton _ (goodSegB_natToString idx)⟩)
    rw [hone]
    have htgt : p ++ ([k] ++ [natToString idx]) = (p ++ [k]) ++ [natToString idx] := by
      simp [List.append_assoc]
    rw [htgt]
    rfl

/-- Filtering a container child's emission by the parent source keeps
exactly the child's contribution `fieldEdges`. -/
theorem filt_val (hsr : Bool) (v : JValue) (p : List String) (k : String)
    (hrep : rep v = true) (hgp : goodPath p = true) (hk : goodSegB k = true)
    (hcont : isContainer v = true) :
    (processValue hsr v (pathId (p ++ [k])) (some (pathId p)) (some k) k false).2.filter
      (fun e => e.source == pathId p) = fieldEdges p k v := by
  cases v with
  | jobj fields =>
    have hone := filt_one hsr (.jobj fields) p k [k] false hrep rfl hgp hk (by simp)
      (goodPath_singleton _ hk)
    rw [hone]
    rfl
  | jarr items =>
    have hemit : processValue hsr (.jarr items) (pathId (p ++ [k]))
        (some (pathId p)) (some k) k false =
        processItems hsr items (pathId (p ++ [k])) (some (pathId p)) (some k) k 0 := rfl
    rw [hemit, filt_items hsr p k hgp hk items 0 (rep_arr hrep)]
    rfl
  | jnull => exact Bool.noConfusion hcont
  | jbool b2 => exact Bool.noConfusion hcont
  | jnum n2 => exact Bool.noConfusion hcont
  | jstr s2 => exact Bool.noConfusion hcont

/-- Filtering the children emission of an object by the object's own id
yields exactly its child edges. -/
theorem filt_children (hsr : Bool) : ∀ (fields : JFields) (p : List String),
    repFields fields = true → goodPath p = true →
    (processChildren hsr fields (pathId p)).2.filter (fun e => e.source == pathId p) =
      childEdges p fields
  | .nil, p, _, _ => rfl
  | .cons k v t, p, hrep, hgp => by
    obtain ⟨hkg, hknot, hrepv, hrept⟩ := repFields_head hrep
    have hemit : (processChildren hsr (.cons k v t) (pathId p)).2 =
        (if isContainer v then
          processValue hsr v (pathId p ++ "-" ++ k) (some (pathId p)) (some k) k false
        else ([], [])).2 ++ (processChildren hsr t (pathId p)).2 := rfl
    have hpid : pathId p ++ "-" ++ k = pathId (p ++ [k]) := (pathId_append p k).symm
    rw [hpid] at hemit
    rw [hemit, List.filter_append, filt_children hsr t p hrept hgp]
    by_cases hcont : isContainer v = true
    · rw [if_pos hcont]
      rw [filt_val hsr v p k hrepv hgp hkg hcont]
      rfl
    · have hcont2 : isContainer v = false := by simpa using hcont
      rw [if_neg (by simp [hcont2])]
      have hfe : fieldEdges p k v = [] := by
        cases v with
        | jobj f2 => exact Bool.noConfusion hcont2
        | jarr i2 => exact Bool.noConfusion hcont2
        | jnull => rfl
        | jbool b2 => rfl
        | jnum n2 => rfl
        | jstr s2 => rfl
      have hce : childEdges p (.cons k v t) = fieldEdges p k v ++ childEdges p t := rfl
      rw [hce, hfe]
      rfl

theorem pathId_assoc (p : List String) (x : String) (q : List String) :
    pathId ((p ++ [x]) ++ q) = pathId (p ++ ([x] ++ q)) := by rw [List.append_assoc]

theorem goodPath_cons_of (x : String) (q : List String) (hx : goodSegB x = true)
    (hq : goodPath q = true) : goodPath ([x] ++ q) = true := by
  rw [goodPath_append]
  exact ⟨goodPath_singleton _ hx, hq⟩

theorem processValue_prim_emit (hsr : Bool) (v : JValue) (nodeId : String)
    (es eh : Option String) (lbl : String) (w : Bool) (hp : isPrim v = true) :
    processValue hsr v nodeId es eh lbl w =
      ([⟨nodeId, [primRow v], false, w⟩], edgeIfParent es eh nodeId lbl) := by
  cases v
  · rfl
  · rfl
  · rfl
  · rfl
  · exact Bool.noConfusion hp
  · exact Bool.noConfusion hp

theorem embItem_prim (G : Graph) (pki : List String) (item : JValue) (hp : isPrim item = true)
    (hfind : findNode G (pathId pki) = some ⟨pathId pki, [primRow item], false, true⟩) :
    EmbItem G pki item := by
  cases item
  · exact hfind
  · exact hfind
  · exact hfind
  · exact hfind
  · exact Bool.noConfusion hp
  · exact Bool.noConfusion hp

/-! ## Establishing the embedding predicate for a generated graph

The graph is decomposed as a frame `A ++ emission ++ B` (nodes) and
`C ++ emission ++ D` (edges); the frames are known not to use any id of
the emitted subtree, which gives unique lookup and exact edge filters. -/

theorem build_all (G : Graph) : ∀ N : Nat,
    (∀ (hsr : Bool) (p : List String) (fields : JFields) (A B : List GNode)
       (C D : List GEdge) (es eh : Option String) (lbl : String),
      jsize (.jobj fields) ≤ N → rep (.jobj fields) = true → goodPath p = true →
      G.nodes = A ++ (processValue hsr (.jobj fields) (pathId p) es eh lbl false).1 ++ B →
      G.edges = C ++ (processValue hsr (.jobj fields) (pathId p) es eh lbl false).2 ++ D →
      (∀ n ∈ A ++ B, ∀ q, goodPath q = true → n.id ≠ pathId (p ++ q)) →
      (∀ e ∈ C ++ D, ∀ q, goodPath q = true → e.source ≠ pathId (p ++ q)) →
      (∀ q, goodPath q = true → es ≠ some (pathId (p ++ q))) →
      EmbObj G p fields) ∧
    (∀ (hsr : Bool) (pk : List String) (k : String) (items : JItems) (idx : Nat)
       (A B : List GNode) (C D : List GEdge) (es eh : Option String) (lbl : String),
      isizeJ items ≤ N → repItems items = true → goodPath pk = true →
      G.nodes = A ++ (processItems hsr items (pathId pk) es eh lbl idx).1 ++ B →
      G.edges = C ++ (processItems hsr items (pathId pk) es eh lbl idx).2 ++ D →
      (∀ n ∈ A ++ B, ∀ j, idx ≤ j → ∀ q, goodPath q = true →
        n.id ≠ pathId ((pk ++ [natToString j]) ++ q)) →
      (∀ e ∈ C ++ D, ∀ j, idx ≤ j → ∀ q, goodPath q = true →
        e.source ≠ pathId ((pk ++ [natToString j]) ++ q)) →
      (∀ j, idx ≤ j → ∀ q, goodPath q = true →
        es ≠ some (pathId ((pk ++ [natToString j]) ++ q))) →
      EmbItems G pk k items idx) ∧
    (∀ (hsr : Bool) (p : List String) (fields : JFields) (A B : List GNode) (C D : List GEdge),
      fsizeJ fields ≤ N → repFields fields = true → goodPath p = true →
      G.nodes = A ++ (processChildren hsr fields (pathId p)).1 ++ B →
      G.edges = C ++ (processChildren hsr fields (pathId p)).2 ++ D →
      (∀ n ∈ A ++ B, ∀ k2, k2 ∈ fkeys fields → ∀ q, goodPath q = true →
        n.id ≠ pathId ((p ++ [k2]) ++ q)) →
      (∀ e ∈ C ++ D, ∀ k2, k2 ∈ fkeys fields → ∀ q, goodPath q = true →
        e.source ≠ pathId ((p ++ [k2]) ++ q)) →
      EmbFields G p fields) := by
  intro N
  induction N with
  | zero =>
    refine ⟨?_, ?_, ?_⟩
    · intro hsr p fields A B C D es eh lbl hsz _ _ _ _ _ _ _
      exact absurd hsz (by have : jsize (JValue.jobj fields) = 1 + fsizeJ fields := rfl; omega)
    · intro hsr pk k items idx A B C D es eh lbl hsz _ _ _ _ _ _ _
      cases items with
      | nil => exact trivial
      | cons item t =>
        exact absurd hsz (by
          have : isizeJ (JItems.cons item t) = 1 + jsize item + isizeJ t := rfl
          omega)
    · intro hsr p fields A B C D hsz _ _ _ _ _ _
      cases fields with
      | nil => exact trivial
      | cons k v t =>
        exact absurd hsz (by
          have : fsizeJ (JFields.cons k v t) = 1 + jsize v + fsizeJ t := rfl
          omega)
  | succ N ih =>
    obtain ⟨ihO, ihI, ihF⟩ := ih
    refine ⟨?_, ?_, ?_⟩
    · -- objects
      intro hsr p fields A B C D es eh lbl hsz hrep hgp hnodes hedges hfrN hfrE hes
      have hrepF := (rep_obj hrep).1
      have hemit1 : (processValue hsr (.jobj fields) (pathId p) es eh lbl false).1 =
          ⟨pathId p, rowsOf fields, (pathId p == "root") && hsr, false⟩ ::
            (processChildren hsr fields (pathId p)).1 := rfl
      have hemit2 : (processValue hsr (.jobj fields) (pathId p) es eh lbl false).2 =
          edgeIfParent es eh (pathId p) lbl ++ (processChildren hsr fields (pathId p)).2 := rfl
      have hch := shapeChildren_of hsr fields p hrepF hgp
      have hfrN2 : ∀ n ∈ A ++ B, n.id ≠ pathId p := by
        intro n hn
        have := hfrN n hn [] rfl
        rwa [List.append_nil] at this
      have hfrE2 : ∀ e ∈ C ++ D, e.source ≠ pathId p := by
        intro e he
        have := hfrE e he [] rfl
        rwa [List.append_nil] at this
      have hfind : findNode G (pathId p) =
          some ⟨pathId p, rowsOf fields, (pathId p == "root") && hsr, false⟩ := by
        have hmem : (⟨pathId p, rowsOf fields, (pathId p == "root") && hsr, false⟩ : GNode)
            ∈ G.nodes := by
          rw [hnodes, hemit1]
          exact List.mem_append.mpr (Or.inl (List.mem_append.mpr
            (Or.inr (List.mem_cons_self _ _))))
        have huniq : ∀ m ∈ G.nodes, m.id = pathId p →
            m = ⟨pathId p, rowsOf fields, (pathId p == "root") && hsr, false⟩ := by
          intro m hm hid
          rw [hnodes, hemit1] at hm
          rcases List.mem_append.mp hm with hm | hm
          · rcases List.mem_append.mp hm with hm | hm
            · exact absurd hid (hfrN2 m (List.mem_append.mpr (Or.inl hm)))
            · rcases List.mem_cons.mp hm with rfl | hm
              · rfl
              · obtain ⟨k2, q, hk2, hq, hid2⟩ := hch.1 m hm
                exfalso
                rw [hid2] at hid
                exact pathId_parent_ne_subtree p k2 q hgp
                  (fkeys_good fields hrepF k2 hk2) hq hid.symm
          · exact absurd hid (hfrN2 m (List.mem_append.mpr (Or.inr hm)))
        exact findNode_unique G _ hmem huniq
      have hfilter : G.edges.filter (fun e => e.source == pathId p) = childEdges p fields := by
        rw [hedges, hemit2, List.filter_append, List.filter_append, List.filter_append]
        have hC : C.filter (fun e => e.source == pathId p) = [] :=
          filter_src_nil _ _ (fun e he => hfrE2 e (List.mem_append.mpr (Or.inl he)))
        have hD : D.filter (fun e => e.source == pathId p) = [] :=
          filter_src_nil _ _ (fun e he => hfrE2 e (List.mem_append.mpr (Or.inr he)))
        have hTop : (edgeIfParent es eh (pathId p) lbl).filter
            (fun e => e.source == pathId p) = [] := by
          apply filter_src_nil
          intro e he
          obtain ⟨s, h, hesv, hehv, rfl⟩ := edgeIfParent_mem es eh _ _ e he
          intro hcontra
          have hsv : s = pathId p := hcontra
          apply hes [] rfl
          rw [List.append_nil, hesv, hsv]
        rw [hC, hD, hTop, filt_children hsr fields p hrepF hgp]
        simp
      refine ⟨⟨⟨(pathId p == "root") && hsr, hfind⟩, hfilter⟩, ?_⟩
      -- the recursive field facts
      have hszF : fsizeJ fields ≤ N := by
        have : jsize (JValue.jobj fields) = 1 + fsizeJ fields := rfl
        omega
      apply ihF hsr p fields (A ++ [⟨pathId p, rowsOf fields, (pathId p == "root") && hsr,
        false⟩]) B (C ++ edgeIfParent es eh (pathId p) lbl) D hszF hrepF hgp
      · rw [hnodes, hemit1]
        simp [List.append_assoc]
      · rw [hedges, hemit2]
        simp [List.append_assoc]
      · intro n hn k2 hk2 q hq
        have hkg2 := fkeys_good fields hrepF k2 hk2
        rcases List.mem_append.mp hn with hn | hn
        · rcases List.mem_append.mp hn with hn | hn
          · have := hfrN n (List.mem_append.mpr (Or.inl hn)) ([k2] ++ q)
              (goodPath_cons_of k2 q hkg2 hq)
            rwa [← pathId_assoc] at this
          · simp only [List.mem_singleton] at hn
            subst hn
            exact pathId_parent_ne_subtree p k2 q hgp hkg2 hq
        · have := hfrN n (List.mem_append.mpr (Or.inr hn)) ([k2] ++ q)
            (goodPath_cons_of k2 q hkg2 hq)
          rwa [← pathId_assoc] at this
      · intro e he k2 hk2 q hq
        have hkg2 := fkeys_good fields hrepF k2 hk2
        rcases List.mem_append.mp he with he | he
        · rcases List.mem_append.mp he with he | he
          · have := hfrE e (List.mem_append.mpr (Or.inl he)) ([k2] ++ q)
              (goodPath_cons_of k2 q hkg2 hq)
            rwa [← pathId_assoc] at this
          · obtain ⟨s, h, hesv, hehv, rfl⟩ := edgeIfParent_mem es eh _ _ e he
            intro hcontra
            have hsv : s = pathId ((p ++ [k2]) ++ q) := hcontra
            apply hes ([k2] ++ q) (goodPath_cons_of k2 q hkg2 hq)
            rw [hesv, hsv, pathId_assoc]
        · have := hfrE e (List.mem_append.mpr (Or.inr he)) ([k2] ++ q)
            (goodPath_cons_of k2 q hkg2 hq)
          rwa [← pathId_assoc] at this
    · -- item lists
      intro hsr pk k items idx A B C D es eh lbl hsz hrepI hgpk hnodes hedges hfrN hfrE hes
      cases items with
      | nil => exact trivial
      | cons item t =>
        obtain ⟨hnarr, hrepi, hrept⟩ := repItems_head hrepI
        have hgpki : goodPath (pk ++ [natToString idx]) = true := by
          rw [goodPath_append]
          exact ⟨hgpk, goodPath_singleton _ (goodSegB_natToString idx)⟩
        have hemit1 : (processItems hsr (.cons item t) (pathId pk) es eh lbl idx).1 =
            (processValue hsr item (pathId (pk ++ [natToString idx])) es eh lbl
              (itemWrapFlag item)).1 ++
            (processItems hsr t (pathId pk) es eh lbl (idx + 1)).1 := by
          rw [pathId_append]
          cases item <;> rfl
        have hemit2 : (processItems hsr (.cons item t) (pathId pk) es eh lbl idx).2 =
            (processValue hsr item (pathId (pk ++ [natToString idx])) es eh lbl
              (itemWrapFlag item)).2 ++
            (processItems hsr t (pathId pk) es eh lbl (idx + 1)).2 := by
          rw [pathId_append]
          cases item <;> rfl
        have hshV := shapeVal_of hsr item (pk ++ [natToString idx]) es eh lbl
          (itemWrapFlag item) hrepi hgpki
        have hshI := shapeItems_of hsr t pk es eh lbl (idx + 1) hrept hgpk
        have hsz1 : jsize item ≤ N := by
          have : isizeJ (JItems.cons item t) = 1 + jsize item + isizeJ t := rfl
          omega
        have hsz2 : isizeJ t ≤ N := by
          have : isizeJ (JItems.cons item t) = 1 + jsize item + isizeJ t := rfl
          omega
        constructor
        · -- the head item
          by_cases hprim : isPrim item = true
          · -- wrapper node
            have hemitp := processValue_prim_emit hsr item (pathId (pk ++ [natToString idx]))
              es eh lbl (itemWrapFlag item) hprim
            apply embItem_prim G _ item hprim
            have hwrap : itemWrapFlag item = true := itemWrapFlag_prim item hprim
            have hmem : (⟨pathId (pk ++ [natToString idx]), [primRow item], false, true⟩ :
                GNode) ∈ G.nodes := by
              rw [hnodes, hemit1, hemitp, ← hwrap]
              exact List.mem_append.mpr (Or.inl (List.mem_append.mpr (Or.inr
                (List.mem_append.mpr (Or.inl (List.mem_singleton.mpr rfl))))))
            have huniq : ∀ m ∈ G.nodes, m.id = pathId (pk ++ [natToString idx]) →
                m = ⟨pathId (pk ++ [natToString idx]), [primRow item], false, true⟩ := by
              intro m hm hid
              rw [hnodes, hemit1, hemitp] at hm
              rcases List.mem_append.mp hm with hm | hm
              · rcases List.mem_append.mp hm with hm | hm
                · exfalso
                  have := hfrN m (List.mem_append.mpr (Or.inl hm)) idx (le_refl _) [] rfl
                  rw [List.append_nil] at this
                  exact this hid
                · rcases List.mem_append.mp hm with hm | hm
                  · simp only [List.mem_singleton] at hm
                    subst hm
                    rw [hwrap]
                  · obtain ⟨j, q, hj, hq, hid2⟩ := hshI.1 m hm
                    exfalso
                    rw [hid2] at hid
                    have hjne : natToString j ≠ natToString idx := by
                      intro hc
                      have := natToString_inj _ _ hc
                      omega
                    exact pathId_subtree_ne pk (natToString j) (natToString idx) q []
                      hgpk (goodSegB_natToString j) (goodSegB_natToString idx) hq rfl
                      hjne (by rw [List.append_nil]; exact hid)
              · exfalso
                have := hfrN m (List.mem_append.mpr (Or.inr hm)) idx (le_refl _) [] rfl
                rw [List.append_nil] at this
                exact this hid
            exact findNode_unique G _ hmem huniq
          · -- object item (arrays are excluded by repItems)
            cases item with
            | jarr i2 => exact Bool.noConfusion hnarr
            | jnull => exact absurd rfl hprim
            | jbool b2 => exact absurd rfl hprim
            | jnum n2 => exact absurd rfl hprim
            | jstr s2 => exact absurd rfl hprim
            | jobj f2 =>
              have hwrap : itemWrapFlag (JValue.jobj f2) = false := rfl
              have hobj := ihO hsr (pk ++ [natToString idx]) f2 A
                ((processItems hsr t (pathId pk) es eh lbl (idx + 1)).1 ++ B)
                C ((processItems hsr t (pathId pk) es eh lbl (idx + 1)).2 ++ D) es eh lbl
                hsz1 hrepi hgpki
              refine hobj ?_ ?_ ?_ ?_ ?_
              · rw [hnodes, hemit1, hwrap]
                simp [List.append_assoc]
              · rw [hedges, hemit2, hwrap]
                simp [List.append_assoc]
              · intro n hn q hq
                rcases List.mem_append.mp hn with hn | hn
                · exact hfrN n (List.mem_append.mpr (Or.inl hn)) idx (le_refl _) q hq
                · rcases List.mem_append.mp hn with hn | hn
                  · obtain ⟨j, q2, hj, hq2, hid2⟩ := hshI.1 n hn
                    rw [hid2]
                    have hjne : natToString j ≠ natToString idx := by
                      intro hc
                      have := natToString_inj _ _ hc
                      omega
                    exact pathId_subtree_ne pk (natToString j) (natToString idx) q2 q
                      hgpk (goodSegB_natToString j) (goodSegB_natToString idx) hq2 hq hjne
                  · exact hfrN n (List.mem_append.mpr (Or.inr hn)) idx (le_refl _) q hq
              · intro e he q hq
                rcases List.mem_append.mp he with he | he
                · exact hfrE e (List.mem_append.mpr (Or.inl he)) idx (le_refl _) q hq
                · rcases List.mem_append.mp he with he | he
                  · rcases hshI.2.1 e he with ⟨s, hesv, hsrc⟩ | ⟨j, q2, hj, hq2, hsrc⟩
                    · rw [hsrc]
                      intro hcontra
                      apply hes idx (le_refl _) q hq
                      rw [hesv, hcontra]
                    · rw [hsrc]
                      have hjne : natToString j ≠ natToString idx := by
                        intro hc
                        have := natToString_inj _ _ hc
                        omega
                      exact pathId_subtree_ne pk (natToString j) (natToString idx) q2 q
                        hgpk (goodSegB_natToString j) (goodSegB_natToString idx) hq2 hq hjne
                  · exact hfrE e (List.mem_append.mpr (Or.inr he)) idx (le_refl _) q hq
              · intro q hq
                exact hes idx (le_refl _) q hq
        · -- the remaining items
          apply ihI hsr pk k t (idx + 1)
            (A ++ (processValue hsr item (pathId (pk ++ [natToString idx])) es eh lbl
              (itemWrapFlag item)).1) B
            (C ++ (processValue hsr item (pathId (pk ++ [natToString idx])) es eh lbl
              (itemWrapFlag item)).2) D es eh lbl hsz2 hrept hgpk
          · rw [hnodes, hemit1]
            simp [List.append_assoc]
          · rw [hedges, hemit2]
            simp [List.append_assoc]
          · intro n hn j hj q hq
            rcases List.mem_append.mp hn with hn | hn
            · rcases List.mem_append.mp hn with hn | hn
              · exact hfrN n (List.mem_append.mpr (Or.inl hn)) j (by omega) q hq
              · obtain ⟨q2, hq2, hid2⟩ := hshV.1 n hn
                rw [hid2]
                have hjne : natToString idx ≠ natToString j := by
                  intro hc
                  have := natToString_inj _ _ hc
                  omega
                exact pathId_subtree_ne pk (natToString idx) (natToString j) q2 q
                  hgpk (goodSegB_natToString idx) (goodSegB_natToString j) hq2 hq hjne
            · exact hfrN n (List.mem_append.mpr (Or.inr hn)) j (by omega) q hq
          · intro e he j hj q hq
            rcases List.mem_append.mp he with he | he
            · rcases List.mem_append.mp he with he | he
              · exact hfrE e (List.mem_append.mpr (Or.inl he)) j (by omega) q hq
              · rcases hshV.2.1 e he with ⟨s, hesv, hsrc⟩ | ⟨q2, hq2, hsrc⟩
                · rw [hsrc]
                  intro hcontra
                  apply hes j (by omega) q hq
                  rw [hesv, hcontra]
                · rw [hsrc]
                  have hjne : natToString idx ≠ natToString j := by
                    intro hc
                    have := natToString_inj _ _ hc
                    omega
                  exact pathId_subtree_ne pk (natToString idx) (natToString j) q2 q
                    hgpk (goodSegB_natToString idx) (goodSegB_natToString j) hq2 hq hjne
            · exact hfrE e (List.mem_append.mpr (Or.inr he)) j (by omega) q hq
          · intro j hj q hq
            exact hes j (by omega) q hq
    · -- field lists
      intro hsr p fields A B C D hsz hrepF hgp hnodes hedges hfrN hfrE
      cases fields with
      | nil => exact trivial
      | cons k v t =>
        obtain ⟨hkg, hknot, hrepv, hrept⟩ := repFields_head hrepF
        have hgpk : goodPath (p ++ [k]) = true := by
          rw [goodPath_append]
          exact ⟨hgp, goodPath_singleton _ hkg⟩
        have hemit1 : (processChildren hsr (.cons k v t) (pathId p)).1 =
            (if isContainer v then
              processValue hsr v (pathId (p ++ [k])) (some (pathId p)) (some k) k false
            else ([], [])).1 ++ (processChildren hsr t (pathId p)).1 := by
          rw [pathId_append]
          rfl
        have hemit2 : (processChildren hsr (.cons k v t) (pathId p)).2 =
            (if isContainer v then
              processValue hsr v (pathId (p ++ [k])) (some (pathId p)) (some k) k false
            else ([], [])).2 ++ (processChildren hsr t (pathId p)).2 := by
          rw [pathId_append]
          rfl
        have hshT := shapeChildren_of hsr t p hrept hgp
        have hsz1 : jsize v ≤ N := by
          have : fsizeJ (JFields.cons k v t) = 1 + jsize v + fsizeJ t := rfl
          omega
        have hsz2 : fsizeJ t ≤ N := by
          have : fsizeJ (JFields.cons k v t) = 1 + jsize v + fsizeJ t := rfl
          omega
        have hkneT : ∀ k2, k2 ∈ fkeys t → k ≠ k2 := by
          intro k2 hk2 hc
          exact hknot (hc ▸ hk2)
        constructor
        · -- this field's value
          cases v with
          | jnull => exact trivial
          | jbool b2 => exact trivial
          | jnum n2 => exact trivial
          | jstr s2 => exact trivial
          | jobj f2 =>
            have hcont : isContainer (JValue.jobj f2) = true := rfl
            have hobj := ihO hsr (p ++ [k]) f2 A
              ((processChildren hsr t (pathId p)).1 ++ B)
              C ((processChildren hsr t (pathId p)).2 ++ D)
              (some (pathId p)) (some k) k hsz1 hrepv hgpk
            refine hobj ?_ ?_ ?_ ?_ ?_
            · rw [hnodes, hemit1, if_pos hcont]
              simp [List.append_assoc]
            · rw [hedges, hemit2, if_pos hcont]
              simp [List.append_assoc]
            · intro n hn q hq
              rcases List.mem_append.mp hn with hn | hn
              · exact hfrN n (List.mem_append.mpr (Or.inl hn)) k
                  (List.mem_cons_self _ _) q hq
              · rcases List.mem_append.mp hn with hn | hn
                · obtain ⟨k2, q2, hk2, hq2, hid2⟩ := hshT.1 n hn
                  rw [hid2]
                  exact pathId_subtree_ne p k2 k q2 q hgp
                    (fkeys_good t hrept k2 hk2) hkg hq2 hq (fun hc => hkneT k2 hk2 hc.symm)
                · exact hfrN n (List.mem_append.mpr (Or.inr hn)) k
                    (List.mem_cons_self _ _) q hq
            · intro e he q hq
              rcases List.mem_append.mp he with he | he
              · exact hfrE e (List.mem_append.mpr (Or.inl he)) k
                  (List.mem_cons_self _ _) q hq
              · rcases List.mem_append.mp he with he | he
                · rcases hshT.2.1 e he with hsrc | ⟨k2, q2, hk2, hq2, hsrc⟩
                  · rw [hsrc]
                    exact (pathId_parent_ne_subtree p k q hgp hkg hq)
                  · rw [hsrc]
                    exact pathId_subtree_ne p k2 k q2 q hgp
                      (fkeys_good t hrept k2 hk2) hkg hq2 hq (fun hc => hkneT k2 hk2 hc.symm)
                · exact hfrE e (List.mem_append.mpr (Or.inr he)) k
                    (List.mem_cons_self _ _) q hq
            · intro q hq
              intro hc
              injection hc with hc2
              exact pathId_parent_ne_subtree p k q hgp hkg hq hc2
          | jarr i2 =>
            have hcont : isContainer (JValue.jarr i2) = true := rfl
            have harr := ihI hsr (p ++ [k]) k i2 0 A
              ((processChildren hsr t (pathId p)).1 ++ B)
              C ((processChildren hsr t (pathId p)).2 ++ D)
              (some (pathId p)) (some k) k
              (by have : jsize (JValue.jarr i2) = 1 + isizeJ i2 := rfl; omega)
              (rep_arr hrepv) hgpk
            refine harr ?_ ?_ ?_ ?_ ?_
            · rw [hnodes, hemit1, if_pos hcont]
              simp [List.append_assoc]
              rfl
            · rw [hedges, hemit2, if_pos hcont]
              simp [List.append_assoc]
              rfl
            · intro n hn j hj q hq
              rw [pathId_assoc]
              rcases List.mem_append.mp hn with hn | hn
              · exact hfrN n (List.mem_append.mpr (Or.inl hn)) k (List.mem_cons_self _ _)
                  ([natToString j] ++ q)
                  (goodPath_cons_of _ q (goodSegB_natToString j) hq)
              · rcases List.mem_append.mp hn with hn | hn
                · obtain ⟨k2, q2, hk2, hq2, hid2⟩ := hshT.1 n hn
                  rw [hid2]
                  exact pathId_subtree_ne p k2 k q2 ([natToString j] ++ q) hgp
                    (fkeys_good t hrept k2 hk2) hkg hq2
                    (goodPath_cons_of _ q (goodSegB_natToString j) hq)
                    (fun hc => hkneT k2 hk2 hc.symm)
                · exact hfrN n (List.mem_append.mpr (Or.inr hn)) k (List.mem_cons_self _ _)
                    ([natToString j] ++ q)
                    (goodPath_cons_of _ q (goodSegB_natToString j) hq)
            · intro e he j hj q hq
              rw [pathId_assoc]
              rcases List.mem_append.mp he with he | he
              · exact hfrE e (List.mem_append.mpr (Or.inl he)) k (List.mem_cons_self _ _)
                  ([natToString j] ++ q)
                  (goodPath_cons_of _ q (goodSegB_natToString j) hq)
              · rcases List.mem_append.mp he with he | he
                · rcases hshT.2.1 e he with hsrc | ⟨k2, q2, hk2, hq2, hsrc⟩
                  · rw [hsrc]
                    exact pathId_parent_ne_subtree p k ([natToString j] ++ q) hgp hkg
                      (goodPath_cons_of _ q (goodSegB_natToString j) hq)
                  · rw [hsrc]
                    exact pathId_subtree_ne p k2 k q2 ([natToString j] ++ q) hgp
                      (fkeys_good t hrept k2 hk2) hkg hq2
                      (goodPath_cons_of _ q (goodSegB_natToString j) hq)
                      (fun hc => hkneT k2 hk2 hc.symm)
                · exact hfrE e (List.mem_append.mpr (Or.inr he)) k (List.mem_cons_self _ _)
                    ([natToString j] ++ q)
                    (goodPath_cons_of _ q (goodSegB_natToString j) hq)
            · intro j hj q hq
              intro hc
              injection hc with hc2
              rw [pathId_assoc] at hc2
              exact pathId_parent_ne_subtree p k ([natToString j] ++ q) hgp hkg
                (goodPath_cons_of _ q (goodSegB_natToString j) hq) hc2
        · -- remaining fields
          apply ihF hsr p t
            (A ++ (if isContainer v then
              processValue hsr v (pathId (p ++ [k])) (some (pathId p)) (some k) k false
            else ([], [])).1) B
            (C ++ (if isContainer v then
              processValue hsr v (pathId (p ++ [k])) (some (pathId p)) (some k) k false
            else ([], [])).2) D hsz2 hrept hgp
          · rw [hnodes, hemit1]
            simp [List.append_assoc]
          · rw [hedges, hemit2]
            simp [List.append_assoc]
          · intro n hn k2 hk2 q hq
            rcases List.mem_append.mp hn with hn | hn
            · rcases List.mem_append.mp hn with hn | hn
              · exact hfrN n (List.mem_append.mpr (Or.inl hn)) k2
                  (List.mem_cons_of_mem _ hk2) q hq
              · by_cases hcont : isContainer v = true
                · rw [if_pos hcont] at hn
                  obtain ⟨q2, hq2, hid2⟩ :=
                    (shapeVal_of hsr v (p ++ [k]) (some (pathId p)) (some k) k false
                      hrepv hgpk).1 n hn
                  rw [hid2]
                  exact pathId_subtree_ne p k k2 q2 q hgp hkg
                    (fkeys_good t hrept k2 hk2) hq2 hq (hkneT k2 hk2)
                · rw [if_neg hcont] at hn
                  simp at hn
            · exact hfrN n (List.mem_append.mpr (Or.inr hn)) k2
                (List.mem_cons_of_mem _ hk2) q hq
          · intro e he k2 hk2 q hq
            rcases List.mem_append.mp he with he | he
            · rcases List.mem_append.mp he with he | he
              · exact hfrE e (List.mem_append.mpr (Or.inl he)) k2
                  (List.mem_cons_of_mem _ hk2) q hq
              · by_cases hcont : isContainer v = true
                · rw [if_pos hcont] at he
                  rcases (shapeVal_of hsr v (p ++ [k]) (some (pathId p)) (some k) k false
                      hrepv hgpk).2.1 e he with ⟨s, hesv, hsrc⟩ | ⟨q2, hq2, hsrc⟩
                  · injection hesv with hesv2
                    rw [hsrc, ← hesv2]
                    exact pathId_parent_ne_subtree p k2 q hgp
                      (fkeys_good t hrept k2 hk2) hq
                  · rw [hsrc]
                    exact pathId_subtree_ne p k k2 q2 q hgp hkg
                      (fkeys_good t hrept k2 hk2) hq2 hq (hkneT k2 hk2)
                · rw [if_neg hcont] at he
                  simp at he
            · exact hfrE e (List.mem_append.mpr (Or.inr he)) k2
                (List.mem_cons_of_mem _ hk2) q hq

/-! ## Helper facts for the reconstruction direction -/

theorem filter_ne_cons_self (a : String) (l : List String) (h : a ∉ l) :
    (a :: l).filter (fun x => x ≠ a) = l := by
  rw [List.filter_cons, if_neg (by simp), List.filter_eq_self]
  intro x hx
  simp only [decide_eq_true_eq]
  exact fun hc => h (hc ▸ hx)

theorem mkRow_key (k : String) (v : JValue) : (mkRow k v).key = k := by cases v <;> rfl

theorem mkRow_id (k : String) (v : JValue) : (mkRow k v).id = k := by cases v <;> rfl

theorem rowsOf_allDigit : ∀ fields : JFields,
    (rowsOf fields).all (fun r => isDigitKey r.key) = allDigitKeysB fields
  | .nil => rfl
  | .cons k v t => by
    simp only [rowsOf, List.all_cons, allDigitKeysB, rowsOf_allDigit t, mkRow_key]

theorem isArrayNode_rowsOf (fields : JFields)
    (h : flen fields = 0 ∨ allDigitKeysB fields = false) :
    isArrayNode (rowsOf fields) = false := by
  cases fields with
  | nil => rfl
  | cons k v t =>
    rcases h with h | h
    · exact absurd h (by simp [flen])
    · unfold isArrayNode
      rw [rowsOf_allDigit, h, Bool.and_false]

theorem itemEdges_handle (src k : String) (pk : List String) :
    ∀ (items : JItems) (i : Nat), ∀ e ∈ itemEdges src k pk items i, e.sourceHandle = k
  | .nil, _, e, he => by simp [itemEdges] at he
  | .cons h t, i, e, he => by
    simp only [itemEdges, List.mem_cons] at he
    rcases he with rfl | he
    · rfl
    · exact itemEdges_handle src k pk t (i + 1) e he

theorem fieldEdges_handle (p : List String) (k : String) (v : JValue) :
    ∀ e ∈ fieldEdges p k v, e.sourceHandle = k := by
  intro e he
  cases v with
  | jobj f2 =>
    simp only [fieldEdges, List.mem_singleton] at he
    subst he
    rfl
  | jarr items => exact itemEdges_handle _ k _ items 0 e he
  | jnull => simp [fieldEdges] at he
  | jbool b => simp [fieldEdges] at he
  | jnum n => simp [fieldEdges] at he
  | jstr s => simp [fieldEdges] at he

theorem childEdges_handle (p : List String) :
    ∀ fields : JFields, ∀ e ∈ childEdges p fields, e.sourceHandle ∈ fkeys fields
  | .nil, e, he => by simp [childEdges] at he
  | .cons k v t, e, he => by
    have hce : childEdges p (.cons k v t) = fieldEdges p k v ++ childEdges p t := rfl
    rw [hce, List.mem_append] at he
    rcases he with he | he
    · rw [fieldEdges_handle p k v e he]
      exact List.mem_cons_self _ _
    · exact List.mem_cons_of_mem _ (childEdges_handle p t e he)

theorem rowEdgesFor_self (k : String) (es : List GEdge)
    (h : ∀ e ∈ es, e.sourceHandle = k) : rowEdgesFor es k = es := by
  rw [rowEdgesFor, List.filter_eq_self]
  intro e he
  simp [h e he]

theorem rowEdgesFor_nil_of (k : String) (es : List GEdge)
    (h : ∀ e ∈ es, e.sourceHandle ≠ k) : rowEdgesFor es k = [] := by
  rw [rowEdgesFor, List.filter_eq_nil_iff]
  intro e he
  simp [h e he]

theorem rowEdgesFor_append (a b : List GEdge) (k : String) :
    rowEdgesFor (a ++ b) k = rowEdgesFor a k ++ rowEdgesFor b k := by
  unfold rowEdgesFor
  rw [List.filter_append]

/-- Membership of an entry in a field list. -/
def fmem (k : String) (v : JValue) : JFields → Prop
  | .nil => False
  | .cons k2 v2 t => (k2 = k ∧ v2 = v) ∨ fmem k v t

theorem fmem_key_mem : ∀ (fields : JFields) (k : String) (v : JValue),
    fmem k v fields → k ∈ fkeys fields
  | .nil, _, _, h => absurd h (by simp [fmem])
  | .cons k2 v2 t, k, v, h => by
    rcases h with ⟨rfl, -⟩ | h
    · exact List.mem_cons_self _ _
    · exact List.mem_cons_of_mem _ (fmem_key_mem t k v h)

/-- Filtering a node's child edges by a row id recovers exactly the edges of
the entry with that key (keys being pairwise distinct). -/
theorem rowEdgesFor_childEdges (p : List String) : ∀ (fields : JFields),
    repFields fields = true → ∀ (k : String) (v : JValue), fmem k v fields →
    rowEdgesFor (childEdges p fields) k = fieldEdges p k v
  | .nil, _, k, v, hm => absurd hm (by simp [fmem])
  | .cons k2 v2 t, hrep, k, v, hm => by
    obtain ⟨hg2, hknot, hrepv2, hrept⟩ := repFields_head hrep
    have hce : childEdges p (.cons k2 v2 t) = fieldEdges p k2 v2 ++ childEdges p t := rfl
    rw [hce, rowEdgesFor_append]
    rcases hm with ⟨rfl, rfl⟩ | hm
    · rw [rowEdgesFor_self k2 _ (fieldEdges_handle p k2 v2),
        rowEdgesFor_nil_of k2 _ (fun e he hc => hknot (hc ▸ childEdges_handle p t e he)),
        List.append_nil]
    · have hne : k ≠ k2 := by
        intro hc
        exact hknot (hc ▸ fmem_key_mem t k v hm)
      rw [rowEdgesFor_nil_of k _
          (fun e he hc => hne ((fieldEdges_handle p k2 v2 e he ▸ hc).symm)),
        rowEdgesFor_childEdges p t hrept k v hm, List.nil_append]

theorem jfAppend_nil_right : ∀ acc : JFields, jfAppend acc .nil = acc
  | .nil => rfl
  | .cons k v t => by simp only [jfAppend, jfAppend_nil_right t]

/-- Reconstruction of a primitive array element from its wrapper node. -/
theorem rebuild_wrapper (G : Graph) (f : Nat) (pki : List String) (item : JValue)
    (vst : List String) (hp : isPrim item = true) (hf : 1 ≤ f)
    (hfind : findNode G (pathId pki) = some ⟨pathId pki, [primRow item], false, true⟩)
    (hnin : pathId pki ∉ vst) :
    processNodeF G f vst (pathId pki) = (item, vst) := by
  cases f with
  | zero => omega
  | succ m =>
    rw [processNodeF_succ_eq]
    have hcont : vst.contains (pathId pki) = false := (contains_false_iff _ _).mpr hnin
    rw [hcont, if_neg (by simp), hfind]
    dsimp only
    rw [if_pos (by simp), parseRowValue_primRow item hp, filter_ne_cons_self _ _ hnin]

/-! ## The reconstruction theorem: `processNode` inverts the emission

By induction on the size of the value: an embedded representable object is
rebuilt exactly, the `visited` set returning to its entry value. -/

theorem rebuild_all (G : Graph) : ∀ M : Nat,
    (∀ (f : Nat) (p : List String) (fields : JFields) (vst : List String),
      jsize (.jobj fields) ≤ M → jsize (.jobj fields) ≤ f →
      rep (.jobj fields) = true → goodPath p = true →
      EmbObj G p fields →
      (∀ q, goodPath q = true → pathId (p ++ q) ∉ vst) →
      processNodeF G f vst (pathId p) = (.jobj fields, vst)) ∧
    (∀ (f : Nat) (src k : String) (pk : List String) (items : JItems) (idx : Nat)
       (vst : List String),
      isizeJ items ≤ M → isizeJ items ≤ f →
      repItems items = true → goodPath pk = true →
      EmbItems G pk k items idx →
      (∀ j, idx ≤ j → ∀ q, goodPath q = true →
        pathId ((pk ++ [natToString j]) ++ q) ∉ vst) →
      runTargets (processNodeF G f) vst (itemEdges src k pk items idx) = (items, vst)) ∧
    (∀ (f : Nat) (p : List String) (fields : JFields) (nodeEdges : List GEdge)
       (acc : JFields) (vst : List String),
      fsizeJ fields ≤ M → fsizeJ fields ≤ f →
      repFields fields = true → goodPath p = true →
      EmbFields G p fields →
      (∀ k v, fmem k v fields → rowEdgesFor nodeEdges k = fieldEdges p k v) →
      (∀ k, k ∈ fkeys fields → k ∉ fkeys acc) →
      (∀ k, k ∈ fkeys fields → ∀ q, goodPath q = true →
        pathId ((p ++ [k]) ++ q) ∉ vst) →
      runRowsObj (processNodeF G f) nodeEdges vst (rowsOf fields) acc =
        (jfAppend acc fields, vst)) := by
  intro M
  induction M with
  | zero =>
    refine ⟨?_, ?_, ?_⟩
    · intro f p fields vst hszM _ _ _ _ _
      exact absurd hszM (by have h1 := jsize_pos (.jobj fields); omega)
    · intro f src k pk items idx vst hszM _ _ _ _ _
      cases items with
      | nil => rfl
      | cons item t =>
        exact absurd hszM (by
          have : isizeJ (JItems.cons item t) = 1 + jsize item + isizeJ t := rfl
          omega)
    · intro f p fields nodeEdges acc vst hszM _ _ _ _ _ _ _
      cases fields with
      | nil => rw [jfAppend_nil_right]; rfl
      | cons k v t =>
        exact absurd hszM (by
          have : fsizeJ (JFields.cons k v t) = 1 + jsize v + fsizeJ t := rfl
          omega)
  | succ N ih =>
    obtain ⟨ihO, ihI, ihF⟩ := ih
    refine ⟨?_, ?_, ?_⟩
    · -- objects
      intro f p fields vst hszM hszf hrep hgp hemb hvst
      obtain ⟨⟨⟨syn, hfind⟩, hfilter⟩, hembF⟩ := hemb
      obtain ⟨hrepF, hdig⟩ := rep_obj hrep
      have hjs : jsize (JValue.jobj fields) = 1 + fsizeJ fields := rfl
      cases f with
      | zero => exact absurd hszf (by omega)
      | succ m =>
        have hnin : pathId p ∉ vst := by
          have := hvst [] rfl
          rwa [List.append_nil] at this
        rw [processNodeF_succ_eq, (contains_false_iff _ _).mpr hnin, if_neg (by simp),
          hfind]
        dsimp only
        rw [if_neg (by simp), if_neg (by rw [isArrayNode_rowsOf fields hdig]; simp),
          hfilter]
        have hrun := ihF m p fields (childEdges p fields) .nil (pathId p :: vst)
          (by omega) (by omega) hrepF hgp hembF
          (rowEdgesFor_childEdges p fields hrepF)
          (by intro k hk; simp [fkeys])
          (by
            intro k hk q hq
            simp only [List.mem_cons]
            push_neg
            refine ⟨fun hc => pathId_parent_ne_subtree p k q hgp
              (fkeys_good fields hrepF k hk) hq hc.symm, ?_⟩
            have := hvst ([k] ++ q)
              (goodPath_cons_of k q (fkeys_good fields hrepF k hk) hq)
            rwa [← pathId_assoc] at this)
        rw [hrun]
        dsimp only
        rw [jfAppend_nil, filter_ne_cons_self _ _ hnin]
    · -- item lists
      intro f src k pk items idx vst hszM hszf hrepI hgpk hembI hvst
      cases items with
      | nil => rfl
      | cons item t =>
        obtain ⟨hnarr, hrepi, hrept⟩ := repItems_head hrepI
        obtain ⟨hembItem, hembT⟩ := hembI
        have hisz : isizeJ (JItems.cons item t) = 1 + jsize item + isizeJ t := rfl
        have hgpki : goodPath (pk ++ [natToString idx]) = true := by
          rw [goodPath_append]
          exact ⟨hgpk, goodPath_singleton _ (goodSegB_natToString idx)⟩
        have hie : itemEdges src k pk (.cons item t) idx =
            mkEdge src k (pathId (pk ++ [natToString idx])) k ::
              itemEdges src k pk t (idx + 1) := rfl
        have htgt : (mkEdge src k (pathId (pk ++ [natToString idx])) k).target =
            pathId (pk ++ [natToString idx]) := rfl
        have hninpki : pathId (pk ++ [natToString idx]) ∉ vst := by
          have := hvst idx (le_refl _) [] rfl
          rwa [List.append_nil] at this
        have hfirst : processNodeF G f vst (pathId (pk ++ [natToString idx])) =
            (item, vst) := by
          cases item with
          | jarr i2 => exact Bool.noConfusion hnarr
          | jobj f2 =>
            exact ihO f (pk ++ [natToString idx]) f2 vst (by
                have : jsize (JValue.jobj f2) = jsize (JValue.jobj f2) := rfl
                omega)
              (by omega) hrepi hgpki hembItem
              (fun q hq => hvst idx (le_refl _) q hq)
          | jnull => exact rebuild_wrapper G f _ _ vst rfl (by omega) hembItem hninpki
          | jbool b => exact rebuild_wrapper G f _ _ vst rfl (by omega) hembItem hninpki
          | jnum n => exact rebuild_wrapper G f _ _ vst rfl (by omega) hembItem hninpki
          | jstr s => exact rebuild_wrapper G f _ _ vst rfl (by omega) hembItem hninpki
        have hrest := ihI f src k pk t (idx + 1) vst (by omega) (by omega)
          hrept hgpk hembT (fun j hj q hq => hvst j (by omega) q hq)
        rw [hie]
        simp only [runTargets]
        rw [htgt, hfirst, hrest]
    · -- field lists
      intro f p fields nodeEdges acc vst hszM hszf hrepF hgp hembF hre hacc hvst
      cases fields with
      | nil => rw [jfAppend_nil_right]; rfl
      | cons k v t =>
        obtain ⟨hkg, hknot, hrepv, hrept⟩ := repFields_head hrepF
        obtain ⟨hembV, hembT⟩ := hembF
        have hfsz : fsizeJ (JFields.cons k v t) = 1 + jsize v + fsizeJ t := rfl
        have hrow : rowsOf (.cons k v t) = mkRow k v :: rowsOf t := rfl
        have hstep : objRowStep (processNodeF G f) nodeEdges vst (mkRow k v) =
            (v, vst) := by
          have hre1 := hre k v (Or.inl ⟨rfl, rfl⟩)
          cases v with
          | jobj f2 =>
            dsimp only [objRowStep, mkRow]
            rw [hre1]
            dsimp only [fieldEdges]
            rw [if_neg (by decide), if_pos (by decide)]
            dsimp only [mkEdge]
            exact ihO f (p ++ [k]) f2 vst (by omega) (by omega) hrepv
              (by rw [goodPath_append]; exact ⟨hgp, goodPath_singleton _ hkg⟩)
              hembV (fun q hq => hvst k (List.mem_cons_self _ _) q hq)
          | jarr items =>
            dsimp only [objRowStep, mkRow]
            rw [hre1]
            dsimp only [fieldEdges]
            rw [if_pos (by decide)]
            cases items with
            | nil => rfl
            | cons item it =>
              rw [if_pos (by simp [itemEdges])]
              have hrun := ihI f (pathId p) k (p ++ [k]) (.cons item it) 0 vst
                (by
                  have h1 : jsize (JValue.jarr (.cons item it)) =
                    1 + isizeJ (.cons item it) := rfl
                  omega)
                (by
                  have h1 : jsize (JValue.jarr (.cons item it)) =
                    1 + isizeJ (.cons item it) := rfl
                  omega)
                hrepv
                (by rw [goodPath_append]; exact ⟨hgp, goodPath_singleton _ hkg⟩)
                hembV
                (by
                  intro j hj q hq
                  rw [pathId_assoc]
                  exact hvst k (List.mem_cons_self _ _) ([natToString j] ++ q)
                    (goodPath_cons_of _ q (goodSegB_natToString j) hq))
              rw [hrun]
          | jnull =>
            dsimp only [objRowStep, mkRow]
            rw [hre1]
            dsimp only [fieldEdges]
            rw [if_neg (by decide), if_neg (by decide)]
            rfl
          | jbool b =>
            dsimp only [objRowStep, mkRow]
            rw [hre1]
            dsimp only [fieldEdges]
            rw [if_neg (by decide), if_neg (by decide)]
            cases b <;> rfl
          | jnum n =>
            dsimp only [objRowStep, mkRow]
            rw [hre1]
            dsimp only [fieldEdges]
            rw [if_neg (by decide), if_neg (by decide)]
            show (JValue.jnum (jsNumber (intToString n)), vst) = (JValue.jnum n, vst)
            rw [jsNumber_intToString]
          | jstr s =>
            dsimp only [objRowStep, mkRow]
            rw [hre1]
            dsimp only [fieldEdges]
            rw [if_neg (by decide), if_neg (by decide)]
            rfl
        have hrest := ihF f p t nodeEdges (jfAppend acc (.cons k v .nil)) vst
          (by omega) (by omega) hrept hgp hembT
          (fun k2 v2 hm => hre k2 v2 (Or.inr hm))
          (by
            intro k2 hk2
            rw [fkeys_jfAppend]
            simp only [List.mem_append, fkeys, List.mem_singleton]
            push_neg
            exact ⟨hacc k2 (List.mem_cons_of_mem _ hk2),
              fun hc => hknot (hc ▸ hk2)⟩)
          (fun k2 hk2 q hq => hvst k2 (List.mem_cons_of_mem _ hk2) q hq)
        rw [hrow]
        simp only [runRowsObj]
        rw [hstep]
        dsimp only
        rw [mkRow_key, jsObjSet_append acc k v (hacc k (List.mem_cons_self _ _)),
          hrest, jfAppend_single_cons]

/-! ## Top-level round trip -/

/-- `buildJson` of a graph that consists exactly of the emission of a
representable object at the root: the root node is the unique root of the
graph, `processNode` rebuilds the object, and the synthetic-root unwrap
fires iff `hsr` is set and the object has a `root` key. -/
theorem buildJsonFuel_emission (hsr : Bool) (fields : JFields)
    (hrep : rep (.jobj fields) = true) (F : Nat) (hF : jsize (.jobj fields) ≤ F)
    (G : Graph)
    (hG1 : G.nodes = (processValue hsr (.jobj fields) (pathId []) none none "" false).1)
    (hG2 : G.edges = (processValue hsr (.jobj fields) (pathId []) none none "" false).2) :
    buildJsonFuel G F =
      if hsr && hasRootKey (.jobj fields) then getRootKey (.jobj fields)
      else .jobj fields := by
  obtain ⟨hrepF, hdig⟩ := rep_obj hrep
  have hemit1 : (processValue hsr (.jobj fields) (pathId []) none none "" false).1 =
      ⟨pathId [], rowsOf fields, (pathId [] == "root") && hsr, false⟩ ::
        (processChildren hsr fields (pathId [])).1 := rfl
  have hemit2 : (processValue hsr (.jobj fields) (pathId []) none none "" false).2 =
      (processChildren hsr fields (pathId [])).2 := rfl
  rw [hemit1] at hG1
  rw [hemit2] at hG2
  have hch := shapeChildren_of hsr fields [] hrepF rfl
  -- the embedding of the object into G
  have hemb : EmbObj G [] fields := by
    refine ((build_all G (jsize (.jobj fields))).1 hsr [] fields [] [] [] []
      none none "" (le_refl _) hrep rfl ?_ ?_ ?_ ?_ ?_)
    · rw [hG1, hemit1]
      simp
    · rw [hG2, hemit2]
      simp
    · intro n hn
      simp at hn
    · intro e he
      simp at he
    · intro q hq
      simp
  -- the reconstruction of the object from G
  have hrb : processNodeF G F [] (pathId []) = (.jobj fields, []) :=
    (rebuild_all G (jsize (.jobj fields))).1 F [] fields [] (le_refl _) hF hrep rfl
      hemb (by intro q hq; simp)
  -- the root node is the unique root
  have hroots : G.nodes.filter
      (fun n => !(G.edges.map (fun e => e.target)).contains n.id) =
      [⟨pathId [], rowsOf fields, (pathId [] == "root") && hsr, false⟩] := by
    rw [hG1, hG2, List.filter_cons]
    have hhead : (!((((processChildren hsr fields (pathId [])).2).map
        (fun e => e.target)).contains (pathId []))) = true := by
      rw [Bool.not_eq_true', contains_false_iff]
      intro hmem
      rw [List.mem_map] at hmem
      obtain ⟨e, he, htg⟩ := hmem
      obtain ⟨k2, q, hk2, hq, htg2⟩ := hch.2.2.1 e he
      rw [htg2] at htg
      exact pathId_parent_ne_subtree [] k2 q rfl
        (fkeys_good fields hrepF k2 hk2) hq htg.symm
    rw [if_pos hhead]
    have hrest : ((processChildren hsr fields (pathId [])).1).filter
        (fun n => !((((processChildren hsr fields (pathId [])).2).map
          (fun e => e.target)).contains n.id)) = [] := by
      rw [List.filter_eq_nil_iff]
      intro n hn
      obtain ⟨e, he, htg⟩ := hch.2.2.2 n hn
      intro hcontra
      rw [Bool.not_eq_true', contains_false_iff] at hcontra
      exact hcontra (List.mem_map.mpr ⟨e, he, htg⟩)
    rw [hrest]
  simp only [buildJsonFuel]
  rw [hroots]
  dsimp only
  rw [hrb]
  dsimp only
  have hpid : ((pathId [] == "root") && hsr) = hsr := by
    have h1 : (pathId [] == "root") = true := rfl
    rw [h1, Bool.true_and]
  rw [hpid]

theorem buildJson_of_emission (hsr : Bool) (fields : JFields)
    (hrep : rep (.jobj fields) = true) (G : Graph)
    (hG1 : G.nodes = (processValue hsr (.jobj fields) (pathId []) none none "" false).1)
    (hG2 : G.edges = (processValue hsr (.jobj fields) (pathId []) none none "" false).2) :
    buildJson G =
      if hsr && hasRootKey (.jobj fields) then getRootKey (.jobj fields)
      else .jobj fields := by
  rw [← buildJsonFuel_stable G (max (defaultFuel G) (jsize (.jobj fields)))
    (Nat.le_max_left _ _)]
  exact buildJsonFuel_emission hsr fields hrep _ (Nat.le_max_right _ _) G hG1 hG2

/-- A representable non-object value: the generated graph wraps it as
`{root: v}` and `buildJson` unwraps it again. -/
theorem buildJson_wrapped (v : JValue) (hrep : rep v = true) (G : Graph)
    (hG1 : G.nodes = (processValue true (.jobj (.cons "root" v .nil)) (pathId [])
      none none "" false).1)
    (hG2 : G.edges = (processValue true (.jobj (.cons "root" v .nil)) (pathId [])
      none none "" false).2) :
    buildJson G = v := by
  have hrepw : rep (JValue.jobj (.cons "root" v .nil)) = true := by
    have h1 : rep (JValue.jobj (.cons "root" v .nil)) =
        ((goodSegB "root" && !(fkeys JFields.nil).contains "root" && rep v &&
          repFields .nil) &&
         ((flen (JFields.cons "root" v .nil) == 0) ||
          !allDigitKeysB (JFields.cons "root" v .nil))) := rfl
    rw [h1, hrep]
    rfl
  rw [buildJson_of_emission true _ hrepw G hG1 hG2]
  rw [if_pos (show (true && hasRootKey (JValue.jobj (.cons "root" v .nil))) = true
    from rfl)]
  rfl

theorem buildJson_unwrapped (fields : JFields) (hrep : rep (.jobj fields) = true)
    (G : Graph)
    (hG1 : G.nodes = (processValue false (.jobj fields) (pathId []) none none "" false).1)
    (hG2 : G.edges = (processValue false (.jobj fields) (pathId []) none none "" false).2) :
    buildJson G = .jobj fields := by
  rw [buildJson_of_emission false fields hrep G hG1 hG2]
  rw [if_neg (by simp)]

/-! ## Claim theorems -/

/-- C1 counterexample: the round trip is not the identity on every plain
JSON value. The object `{"0": 0}` has a single all-numeric key, so
`buildJson` reads the rebuilt node back as an array: the round trip yields
`[0]`, which is not deep-equal to `{"0": 0}`. -/
theorem c1_counterexample :
    buildJson (generateGraph (.jobj (.cons "0" (.jnum 0) .nil))) =
      .jarr (.cons (.jnum 0) .nil) ∧
    JValue.jarr (.cons (.jnum 0) .nil) ≠ JValue.jobj (.cons "0" (.jnum 0) .nil) :=
  ⟨rfl, by decide⟩

/-- C1 (amended): the round trip `buildJson ∘ generateGraph` is the
identity on every representable JSON value: object keys nonempty,
dash-free and pairwise distinct, no nonempty object whose keys are all
numeric strings, and no array nested directly inside an array. This
includes the concrete case `{"a": [1, "x", true, null]}` (see the
witness). -/
theorem c1_round_trip (v : JValue) (h : rep v = true) :
    buildJson (generateGraph v) = v := by
  cases v with
  | jobj fields => exact buildJson_unwrapped fields h _ rfl rfl
  | jnull => exact buildJson_wrapped _ h _ rfl rfl
  | jbool b => exact buildJson_wrapped _ h _ rfl rfl
  | jnum n => exact buildJson_wrapped _ h _ rfl rfl
  | jstr s => exact buildJson_wrapped _ h _ rfl rfl
  | jarr items => exact buildJson_wrapped _ h _ rfl rfl

/-- Witness for C1: the spec's concrete case `{"a": [1, "x", true, null]}`
is representable and round-trips exactly, element order included. -/
theorem c1_round_trip_witness :
    rep (.jobj (.cons "a" (.jarr (.cons (.jnum 1) (.cons (.jstr "x")
      (.cons (.jbool true) (.cons .jnull .nil))))) .nil)) = true ∧
    buildJson (generateGraph (.jobj (.cons "a" (.jarr (.cons (.jnum 1)
      (.cons (.jstr "x") (.cons (.jbool true) (.cons .jnull .nil))))) .nil))) =
      .jobj (.cons "a" (.jarr (.cons (.jnum 1) (.cons (.jstr "x")
        (.cons (.jbool true) (.cons .jnull .nil))))) .nil) :=
  ⟨by decide, c1_round_trip _ (by decide)⟩

/-- C6: `generateGraph` applied to the scalar `42` produces a graph whose
only node has id `"root"` and is tagged as synthetic root, and `buildJson`
of that graph returns the scalar `42`, not the object `{"root": 42}`. -/
theorem c6_synthetic_root_unwrap :
    (generateGraph (.jnum 42)).nodes =
      [⟨"root", [⟨"root", "root", "42", .primitive, .pnumber, false⟩], true, false⟩] ∧
    buildJson (generateGraph (.jnum 42)) = .jnum 42 ∧
    buildJson (generateGraph (.jnum 42)) ≠ .jobj (.cons "root" (.jnum 42) .nil) := by
  refine ⟨rfl, rfl, ?_⟩
  decide

/-- C9: the row generated for a primitive string value carries
`isColor = true` exactly when the string matches the 3-or-6-hex-digit
color pattern; in particular `"#FF0000"` is flagged and `"#ZZ0000"` is
not. -/
theorem c9_color_detection :
    (∀ k s : String,
      (generateGraph (.jobj (.cons k (.jstr s) .nil))).nodes =
        [⟨"root", [⟨k, k, s, .primitive, .pstring, isColorString s⟩], false, false⟩]) ∧
    isColorString "#FF0000" = true ∧ isColorString "#ZZ0000" = false := by
  refine ⟨fun k s => rfl, by decide, by decide⟩

/-- C8: the sanitized workspace id always matches `^[A-Za-z0-9_-]{6,64}$`;
a trimmed candidate matching the pattern is used as-is, and any other
candidate (missing, non-string, or non-matching) is replaced by a freshly
generated 12-character hex id, which itself matches the pattern. -/
theorem c8_workspace_id_sanitization :
    ∀ (cand : Option String) (uuid : String), uuidShaped uuid = true →
      matchesWidPattern (sanitizeWorkspaceId cand uuid) = true ∧
      (∀ s, cand = some s → matchesWidPattern (jsTrim s) = true →
        sanitizeWorkspaceId cand uuid = jsTrim s) ∧
      ((cand = none ∨ ∃ s, cand = some s ∧ matchesWidPattern (jsTrim s) = false) →
        sanitizeWorkspaceId cand uuid = createWorkspaceId uuid) ∧
      (createWorkspaceId uuid).data.length = 12 ∧
      matchesWidPattern (createWorkspaceId uuid) = true := by
  intro cand uuid hu
  simp only [uuidShaped, Bool.and_eq_true, decide_eq_true_eq, List.all_eq_true] at hu
  obtain ⟨hlen, hchars⟩ := hu
  have hlen12 : (createWorkspaceId uuid).data.length = 12 := by
    simp only [createWorkspaceId]
    rw [List.length_take]
    omega
  have hcreate : matchesWidPattern (createWorkspaceId uuid) = true := by
    simp only [matchesWidPattern, Bool.and_eq_true, decide_eq_true_eq, List.all_eq_true]
    refine ⟨⟨by omega, by omega⟩, ?_⟩
    intro c hc
    simp only [createWorkspaceId] at hc
    have hc' := List.mem_of_mem_take hc
    have hcf := List.mem_filter.mp hc'
    have hclass := hchars c hcf.1
    simp only [Bool.or_eq_true, Bool.and_eq_true, decide_eq_true_eq] at hclass hcf
    simp only [isWidChar, Bool.or_eq_true, Bool.and_eq_true, decide_eq_true_eq]
    rcases hclass with (h | ⟨h1, h2⟩) | h
    · exact Or.inl (Or.inl (Or.inr h))
    · exact Or.inl (Or.inl (Or.inl (Or.inr ⟨h1, le_trans h2 (by decide)⟩)))
    · exact absurd h hcf.2
  refine ⟨?_, ?_, ?_, hlen12, hcreate⟩
  · cases cand with
    | none => simpa [sanitizeWorkspaceId] using hcreate
    | some s =>
      simp only [sanitizeWorkspaceId]
      by_cases hm : matchesWidPattern (jsTrim s) = true
      · simp [hm]
      · simp only [Bool.not_eq_true] at hm
        simpa [hm] using hcreate
  · intro s hs hm
    subst hs
    simp [sanitizeWorkspaceId, hm]
  · intro h
    rcases h with rfl | ⟨s, rfl, hm⟩
    · rfl
    · simp [sanitizeWorkspaceId, hm]

/-- Closed instance of C8 at a concrete invalid candidate and a concrete
UUID. -/
theorem c8_workspace_id_sanitization_witness :
    uuidShaped "d290f1ee-6c54-4b01-90e6-d701748f0851" = true ∧
    matchesWidPattern
      (sanitizeWorkspaceId (some "  bad id! ") "d290f1ee-6c54-4b01-90e6-d701748f0851") = true ∧
    sanitizeWorkspaceId (some "  bad id! ") "d290f1ee-6c54-4b01-90e6-d701748f0851" =
      createWorkspaceId "d290f1ee-6c54-4b01-90e6-d701748f0851" := by
  have h := c8_workspace_id_sanitization (some "  bad id! ")
    "d290f1ee-6c54-4b01-90e6-d701748f0851" (by decide)
  exact ⟨by decide, h.1, h.2.2.1 (Or.inr ⟨_, rfl, by decide⟩)⟩

/-- C2: with owner `s1` and `allowCollaboratorEdits = false`, a full
state delta from a different session `s2` is applied only for the UI
fields while `jsonText`/`nodes`/`edges` stay unchanged; every emission of
the handler bypasses the sender, so nothing is sent back to `s2`; and
after `allowCollaboratorEdits` becomes true the same delta is accepted in
full. -/
theorem c2_permission_gate :
    ∀ (ws : Workspace) (s1 s2 jt : String) (ns : List GNode) (es : List GEdge)
      (fsc : Bool) (ew : Int),
      ws.ownerSocketId = some s1 → s2 ≠ s1 → ws.allowCollaboratorEdits = false →
      ((handleStateChange ws s2 ⟨some jt, some ns, some es, some fsc, some ew⟩).1.jsonText
          = ws.jsonText ∧
       (handleStateChange ws s2 ⟨some jt, some ns, some es, some fsc, some ew⟩).1.nodes
          = ws.nodes ∧
       (handleStateChange ws s2 ⟨some jt, some ns, some es, some fsc, some ew⟩).1.edges
          = ws.edges ∧
       (handleStateChange ws s2 ⟨some jt, some ns, some es, some fsc, some ew⟩).1.isFullScreen
          = fsc ∧
       (handleStateChange ws s2 ⟨some jt, some ns, some es, some fsc, some ew⟩).1.editorWidth
          = ew ∧
       (∀ e ∈ (handleStateChange ws s2 ⟨some jt, some ns, some es, some fsc, some ew⟩).2,
          e.target = .exceptSender) ∧
       (handleStateChange { ws with allowCollaboratorEdits := true } s2
          ⟨some jt, some ns, some es, some fsc, some ew⟩).1.jsonText = jt ∧
       (handleStateChange { ws with allowCollaboratorEdits := true } s2
          ⟨some jt, some ns, some es, some fsc, some ew⟩).1.nodes = ns ∧
       (handleStateChange { ws with allowCollaboratorEdits := true } s2
          ⟨some jt, some ns, some es, some fsc, some ew⟩).1.edges = es ∧
       (handleStateChange { ws with allowCollaboratorEdits := true } s2
          ⟨some jt, some ns, some es, some fsc, some ew⟩).1.isFullScreen = fsc ∧
       (handleStateChange { ws with allowCollaboratorEdits := true } s2
          ⟨some jt, some ns, some es, some fsc, some ew⟩).1.editorWidth = ew) := by
  intro ws s1 s2 jt ns es fsc ew ho hne hac
  have hcanet : (ws.ownerSocketId == some s2 || ws.allowCollaboratorEdits) = false := by
    rw [ho, hac]
    simp only [Bool.or_false, beq_eq_false_iff_ne, ne_eq, Option.some.injEq]
    exact fun h => hne h.symm
  refine ⟨?_, ?_, ?_, ?_, ?_, handleStateChange_all_emissions_skip_sender ws s2 _,
      ?_, ?_, ?_, ?_, ?_⟩ <;>
    simp [handleStateChange, hcanet]

/-- Closed instance of C2 at concrete sessions and a concrete delta. -/
theorem c2_permission_gate_witness :
    ((handleStateChange { createWorkspaceState with
        ownerSocketId := some "S1",
        connectedUsers := [("S1", ⟨"S1", "User S1", "#64748b"⟩),
                           ("S2", ⟨"S2", "User S2", "#64748b"⟩)] } "S2"
        ⟨some "{}", some [], some [], some true, some 500⟩).1.jsonText = "" ∧
     (handleStateChange { createWorkspaceState with
        ownerSocketId := some "S1",
        connectedUsers := [("S1", ⟨"S1", "User S1", "#64748b"⟩),
                           ("S2", ⟨"S2", "User S2", "#64748b"⟩)],
        allowCollaboratorEdits := true } "S2"
        ⟨some "{}", some [], some [], some true, some 500⟩).1.jsonText = "{}") := by
  have h := c2_permission_gate { createWorkspaceState with
      ownerSocketId := some "S1",
      connectedUsers := [("S1", ⟨"S1", "User S1", "#64748b"⟩),
                         ("S2", ⟨"S2", "User S2", "#64748b"⟩)] }
    "S1" "S2" "{}" [] [] true 500 rfl (by decide) rfl
  exact ⟨h.1, h.2.2.2.2.2.2.1⟩

/-- C7: with members `[s1 (owner), s2]`, disconnecting `s1` reassigns the
owner to `s2` and broadcasts the updated permissions to the room;
disconnecting the last remaining member sets the owner to null; and
disconnecting a non-owner leaves the owner unchanged and triggers no
permissions broadcast. -/
theorem c7_ownership_transfer :
    ∀ (ws : Workspace) (s1 s2 : String) (u1 u2 : UserMeta),
      ws.connectedUsers = [(s1, u1), (s2, u2)] → ws.ownerSocketId = some s1 → s1 ≠ s2 →
      ((handleDisconnect ws s1).1.ownerSocketId = some s2 ∧
       (⟨.room, "workspace-permissions"⟩ : Emission) ∈ (handleDisconnect ws s1).2 ∧
       (∀ ws2 : Workspace, ws2.connectedUsers = [(s2, u2)] → ws2.ownerSocketId = some s2 →
          (handleDisconnect ws2 s2).1.ownerSocketId = none) ∧
       (handleDisconnect ws s2).1.ownerSocketId = some s1 ∧
       (⟨.room, "workspace-permissions"⟩ : Emission) ∉ (handleDisconnect ws s2).2) := by
  intro ws s1 s2 u1 u2 husers howner hne
  have hne' : s2 ≠ s1 := hne.symm
  have hne12 : (s1 == s2) = false := by simpa using hne
  have hne21 : (s2 == s1) = false := by simpa using hne'
  refine ⟨?_, ?_, ?_, ?_, ?_⟩
  · simp [handleDisconnect, husers, howner, mapDelete, hne21, hne']
  · simp [handleDisconnect, howner]
  · intro ws2 hu2 ho2
    simp [handleDisconnect, hu2, ho2, mapDelete]
  · simp [handleDisconnect, husers, howner, hne12, hne]
  · simp [handleDisconnect, husers, howner, hne12, hne]

/-- Closed instance of C7 at the concrete sessions `"S1"` and `"S2"`. -/
theorem c7_ownership_transfer_witness :
    (handleDisconnect { createWorkspaceState with
        connectedUsers := [("S1", ⟨"S1", "User S1", "#64748b"⟩),
                           ("S2", ⟨"S2", "User S2", "#64748b"⟩)],
        ownerSocketId := some "S1" } "S1").1.ownerSocketId = some "S2" := by
  exact (c7_ownership_transfer _ "S1" "S2" ⟨"S1", "User S1", "#64748b"⟩
    ⟨"S2", "User S2", "#64748b"⟩ rfl rfl (by decide)).1

/-- C3 counterexample: a node with zero rows vacuously satisfies "every
row key, after trimming, matches a digit string", yet `buildJson`
serializes it as the empty object, not as an array: the code additionally
requires at least one row. -/
theorem c3_counterexample :
    buildJson ⟨[⟨"n1", [], false, false⟩], []⟩ = .jobj .nil ∧
    JValue.jobj .nil ≠ .jarr .nil := by
  exact ⟨rfl, by decide⟩

/-- C3 amended: a non-wrapper node serializes as a JSON array if and only
if it has at least one row and every row key, after trimming, is a
nonempty digit string; when it does, elements appear in row order (the
second conjunct shows keys `"2","0","1"` produce the values in row order,
not sorted by numeric key). -/
theorem c3_array_shape_inference :
    (∀ (g : Graph) (fuel : Nat) (v : List String) (nodeId : String) (node : GNode),
      findNode g nodeId = some node → node.isPrimitiveArrayItemWrapper = false →
      v.contains nodeId = false →
      ((∃ items, (processNodeF g (fuel+1) v nodeId).1 = .jarr items) ↔
        (node.rows ≠ [] ∧ ∀ r ∈ node.rows, isDigitKey r.key = true))) ∧
    buildJson ⟨[⟨"n1", [⟨"2", "2", "a", .primitive, .pstring, false⟩,
                        ⟨"0", "0", "b", .primitive, .pstring, false⟩,
                        ⟨"1", "1", "c", .primitive, .pstring, false⟩], false, false⟩], []⟩ =
      .jarr (.cons (.jstr "a") (.cons (.jstr "b") (.cons (.jstr "c") .nil))) := by
  constructor
  · intro g fuel v nodeId node hfind hwrap hvis
    simp only [processNodeF, hvis, Bool.false_eq_true, if_false, hfind, hwrap,
      Bool.false_and, Bool.false_eq_true, if_false]
    by_cases harr : isArrayNode node.rows = true
    · simp only [harr, if_true]
      have harr' := harr
      simp only [isArrayNode, Bool.and_eq_true, Bool.not_eq_true', List.isEmpty_eq_false,
        List.all_eq_true] at harr'
      constructor
      · intro _
        exact ⟨harr'.1, harr'.2⟩
      · intro _
        exact ⟨_, rfl⟩
    · simp only [harr, Bool.false_eq_true, if_false]
      constructor
      · intro ⟨items, hitems⟩
        simp at hitems
      · intro ⟨hne, hall⟩
        exact absurd (by
          simp only [isArrayNode, Bool.and_eq_true, Bool.not_eq_true', List.isEmpty_eq_false,
            List.all_eq_true]
          exact ⟨hne, hall⟩) harr
  · rfl

/-- Closed instance of the amended C3 at the three-row digit-key node. -/
theorem c3_array_shape_inference_witness :
    ∃ items,
      (processNodeF (⟨[⟨"n1", [⟨"2", "2", "a", .primitive, .pstring, false⟩,
                              ⟨"0", "0", "b", .primitive, .pstring, false⟩,
                              ⟨"1", "1", "c", .primitive, .pstring, false⟩],
                       false, false⟩], []⟩ : Graph) 1 [] "n1").1 = .jarr items := by
  exact (c3_array_shape_inference.1
    (⟨[⟨"n1", [⟨"2", "2", "a", .primitive, .pstring, false⟩,
               ⟨"0", "0", "b", .primitive, .pstring, false⟩,
               ⟨"1", "1", "c", .primitive, .pstring, false⟩], false, false⟩], []⟩ : Graph)
    0 [] "n1"
    ⟨"n1", [⟨"2", "2", "a", .primitive, .pstring, false⟩,
            ⟨"0", "0", "b", .primitive, .pstring, false⟩,
            ⟨"1", "1", "c", .primitive, .pstring, false⟩], false, false⟩
    (by decide) rfl rfl).mpr ⟨by decide, by decide⟩

/-- Two-node graph with an edge cycle: a row of `A` points to `B` and a
row of `B` points back to `A`. -/
def cycleG : Graph :=
  ⟨[⟨"A", [⟨"b", "b", "{ 1 keys }", .object, .pstring, false⟩], false, false⟩,
    ⟨"B", [⟨"a", "a", "{ 1 keys }", .object, .pstring, false⟩], false, false⟩],
   [⟨"eAB", "A", "b", "B", "b"⟩, ⟨"eBA", "B", "a", "A", "a"⟩]⟩

/-- C4: the graph-to-JSON reconstruction terminates on every finite graph,
cycles included: (1) every fuel at least `defaultFuel g` computes the same
value as `buildJson g`, so the recursion is bounded and insensitive to the
bound; (2) revisiting a node id that is currently being visited returns
the `"[Circular]"` sentinel without recursing and leaves the visited set
unchanged; (3) when the recursion for an existing node unwinds, its
currently-visiting marker has been removed; and (4) on the concrete
two-node edge cycle the reconstruction evaluates to a value containing the
sentinel. -/
theorem c4_cycle_safety :
    (∀ (g : Graph) (fuel : Nat), defaultFuel g ≤ fuel → buildJsonFuel g fuel = buildJson g) ∧
    (∀ (g : Graph) (fuel : Nat) (v : List String) (id : String), v.contains id = true →
      processNodeF g (fuel + 1) v id = (.jstr "[Circular]", v)) ∧
    (∀ (g : Graph) (fuel : Nat) (v : List String) (id : String) (n : GNode),
      findNode g id = some n → v.contains id = false →
      id ∉ (processNodeF g (fuel + 1) v id).2) ∧
    buildJson cycleG =
      .jobj (.cons "b" (.jobj (.cons "a" (.jstr "[Circular]") .nil)) .nil) := by
  refine ⟨buildJsonFuel_stable, ?_, ?_, rfl⟩
  · intro g fuel v id h
    rw [processNodeF_succ_eq]
    split
    · rfl
    next hcn => exact absurd h hcn
  · intro g fuel v id n hfind hc
    rw [processNodeF_succ_eq]
    simp only [hc, Bool.false_eq_true, if_false, hfind]
    split
    · intro hmem
      simp only [List.mem_filter, decide_eq_true_eq] at hmem
      exact hmem.2 rfl
    · split
      · intro hmem
        simp only [List.mem_filter, decide_eq_true_eq] at hmem
        exact hmem.2 rfl
      · intro hmem
        simp only [List.mem_filter, decide_eq_true_eq] at hmem
        exact hmem.2 rfl

/-- Closed instance of C4 on the concrete cycle graph. -/
theorem c4_cycle_safety_witness :
    buildJsonFuel cycleG 100 = buildJson cycleG ∧
    processNodeF cycleG 1 ["A"] "A" = (.jstr "[Circular]", ["A"]) ∧
    "B" ∉ (processNodeF cycleG 5 ["A"] "B").2 := by
  refine ⟨c4_cycle_safety.1 cycleG 100 (by decide), ?_, ?_⟩
  · exact c4_cycle_safety.2.1 cycleG 0 ["A"] "A" (by decide)
  · exact c4_cycle_safety.2.2.1 cycleG 4 ["A"] "B"
      ⟨"B", [⟨"a", "a", "{ 1 keys }", .object, .pstring, false⟩], false, false⟩
      (by decide) (by decide)

/-- C5 counterexample: a synthetic-root graph whose reconstructed root
object has the key `root` alongside another key `x` is still unwrapped by
the code (the check is `hasOwnProperty`, not "exactly one key"), contrary
to the claim that such a value is returned unmodified. -/
theorem c5_counterexample :
    buildJson ⟨[⟨"root", [⟨"root", "root", "1", .primitive, .pnumber, false⟩,
                          ⟨"x", "x", "2", .primitive, .pnumber, false⟩], true, false⟩], []⟩ =
      .jnum 1 ∧
    JValue.jnum 1 ≠ .jobj (.cons "root" (.jnum 1) (.cons "x" (.jnum 2) .nil)) := by
  exact ⟨rfl, by decide⟩

/-- C5 amended: when the single root node carries the synthetic-root flag,
the reconstructed root value is unwrapped to its `root` entry exactly when
it is an object containing the key `root`, possibly among other keys; any
value without a `root` key (including every non-object) is returned
unmodified. -/
theorem c5_synthetic_unwrap_rule :
    ∀ (g : Graph) (r : GNode),
      g.nodes.filter (fun n => !(g.edges.map (fun e => e.target)).contains n.id) = [r] →
      r.isSyntheticRoot = true →
      ((hasRootKey (processNodeF g (defaultFuel g) [] r.id).1 = true →
          buildJson g = getRootKey (processNodeF g (defaultFuel g) [] r.id).1) ∧
       (hasRootKey (processNodeF g (defaultFuel g) [] r.id).1 = false →
          buildJson g = (processNodeF g (defaultFuel g) [] r.id).1)) := by
  intro g r hroots hsyn
  have hb : buildJson g =
      (if r.isSyntheticRoot && hasRootKey (processNodeF g (defaultFuel g) [] r.id).1 then
        getRootKey (processNodeF g (defaultFuel g) [] r.id).1
      else (processNodeF g (defaultFuel g) [] r.id).1) := by
    simp only [buildJson, buildJsonFuel]
    rw [hroots]
  constructor
  · intro hkey
    rw [hb, hsyn, hkey]
    simp
  · intro hkey
    rw [hb, hsyn, hkey]
    simp

/-- Closed instance of the amended C5 at the two-key synthetic root. -/
theorem c5_synthetic_unwrap_rule_witness :
    buildJson ⟨[⟨"root", [⟨"root", "root", "1", .primitive, .pnumber, false⟩,
                          ⟨"x", "x", "2", .primitive, .pnumber, false⟩], true, false⟩], []⟩ =
      getRootKey (processNodeF ⟨[⟨"root", [⟨"root", "root", "1", .primitive, .pnumber, false⟩,
                          ⟨"x", "x", "2", .primitive, .pnumber, false⟩], true, false⟩], []⟩
        (defaultFuel ⟨[⟨"root", [⟨"root", "root", "1", .primitive, .pnumber, false⟩,
                          ⟨"x", "x", "2", .primitive, .pnumber, false⟩], true, false⟩], []⟩)
        [] "root").1 := by
  exact (c5_synthetic_unwrap_rule
    (⟨[⟨"root", [⟨"root", "root", "1", .primitive, .pnumber, false⟩,
                 ⟨"x", "x", "2", .primitive, .pnumber, false⟩], true, false⟩], []⟩ : Graph)
    ⟨"root", [⟨"root", "root", "1", .primitive, .pnumber, false⟩,
              ⟨"x", "x", "2", .primitive, .pnumber, false⟩], true, false⟩
    (by decide) rfl).1 (by decide)

/-- C10: in every workspace state reachable by a sequence of connect and
disconnect events, the owner is null exactly on an empty workspace and is
otherwise a currently connected member. -/
theorem c10_owner_invariant : ∀ l : List SEvent, ownerInv (runWs l) := by
  have hstep : ∀ (ws : Workspace) (e : SEvent), ownerInv ws → ownerInv (stepWs ws e) := by
    intro ws e hinv
    cases e with
    | connect sid =>
      simp only [stepWs, handleConnect]
      by_cases hf : ownerFalsy ws.ownerSocketId
      · simp only [hf, if_true, ownerInv]
        exact mapSet_keys_superset _ _ _ _ (Or.inr rfl)
      · simp only [hf, if_false, Bool.false_eq_true, ownerInv]
        cases ho : ws.ownerSocketId with
        | none => simp [ownerFalsy, ho] at hf
        | some o =>
          simp only [ownerInv, ho] at hinv
          exact mapSet_keys_superset _ _ _ _ (Or.inl hinv)
    | disconnect sid =>
      simp only [stepWs, handleDisconnect, ownerInv]
      by_cases hod : ws.ownerSocketId = some sid
      · simp only [hod, beq_self_eq_true, if_true]
        cases hh : (mapDelete ws.connectedUsers sid).head? with
        | none => simpa using List.head?_eq_none_iff.mp hh
        | some kv =>
          have hmem : kv ∈ mapDelete ws.connectedUsers sid := List.mem_of_mem_head? hh
          exact List.mem_map.mpr ⟨kv, hmem, rfl⟩
      · have hbeq : (ws.ownerSocketId == some sid) = false := by simpa using hod
        simp only [hbeq, Bool.false_eq_true, if_false]
        cases ho : ws.ownerSocketId with
        | none =>
          simp only [ownerInv, ho] at hinv
          simp [mapDelete, hinv]
        | some o =>
          simp only [ownerInv, ho] at hinv
          have hne : o ≠ sid := by
            intro h
            exact hod (by rw [ho, h])
          exact mapDelete_keys_mem _ _ _ hinv hne
  intro l
  have main : ∀ (l : List SEvent) (ws : Workspace), ownerInv ws → ownerInv (l.foldl stepWs ws) := by
    intro l
    induction l with
    | nil => intro ws h; simpa using h
    | cons e t ih =>
      intro ws h
      simpa using ih (stepWs ws e) (hstep ws e h)
  exact main l createWorkspaceState (by simp [createWorkspaceState, ownerInv])
